import Mathlib

/-!
A segmented circular deque (`src/deque.h`).

Shallow embedding of `class Deque` and proofs about it.

Modelling conventions.

* `size_t` values are natural numbers.  Slot indices never exceed twice the
  number of allocated slots, so their arithmetic cannot wrap while the storage
  exists.  The one place where a caller-supplied `size_t` enters arithmetic is
  the rounding `(size + block_size_ - 1) / block_size_` of `Assign`; there the
  sum is reduced modulo `2 ^ 64`, as the 64-bit machine does.
* `std::unique_ptr<std::unique_ptr<int[]>[]> data_` is a list of blocks, each
  block a list of `int`s; a null block array is the empty list.
* An access `data_[b][o]` outside the allocated storage has no defined
  behaviour in C++; the model answers `none` there, so a result `some _` also
  says that every storage access was inside an allocated block.
* `PushBack` and `PushFront` call themselves after growing.  The model takes
  the permitted call depth as its first argument and answers `none` when it is
  used up.
* Allocation always succeeds.
* A subtraction that the code guards against going below zero (`right_ - left_`
  under `right_ >= left_`, `left_ - 1` under `left_ != 0`, and the like) is the
  subtraction of `Nat`.  The four that some state can take below zero (lines
  126, 223, 269 and 299) are `size_t_sub`, which wraps as the machine does.
-/

/-- The member `block_size_` (line 40). -/
def block_size_ : Nat := 512

/-- Number of values of `size_t`. -/
def size_t_card : Nat := 2 ^ 64

/-- Subtraction of two `size_t` values: below zero it wraps around `2 ^ 64`. -/
def size_t_sub (a b : Nat) : Nat := if b ≤ a then a - b else a + size_t_card - b

/-- The data members of `class Deque` (lines 40-44). -/
structure Deque where
  left_ : Nat
  right_ : Nat
  blocks_ : Nat
  data_ : List (List Int)
deriving DecidableEq

namespace Deque

/-- The state given by the default member initializers (lines 41-44). -/
def members : Deque := { left_ := 0, right_ := 0, blocks_ := 0, data_ := [] }

/-- `Deque::BlockByIndex` (lines 77-79). -/
def BlockByIndex (index : Nat) : Nat := index / block_size_

/-- `Deque::Convert` (lines 152-155): the pair `(block_index, index_inside)`. -/
def Convert (index : Nat) : Nat × Nat := (BlockByIndex index, index % block_size_)

/-- `Deque::IntByIndex const` (lines 69-75): the value read from `data_[block_index][index_inside]`. -/
def IntByIndex (d : Deque) (index : Nat) : Option Int :=
  match d.data_[(Convert index).1]? with
  | none => none
  | some block => block[(Convert index).2]?

/-- The statement `IntByIndex(index) = value` through the reference returned by
`Deque::IntByIndex` (lines 61-67). -/
def IntByIndexAssign (d : Deque) (index : Nat) (value : Int) : Option Deque :=
  match d.data_[(Convert index).1]? with
  | none => none
  | some block =>
    if (Convert index).2 < block.length then
      some { d with data_ := d.data_.set (Convert index).1 (block.set (Convert index).2 value) }
    else none

/-- `Deque::EmptyValue` (lines 131-133). -/
def EmptyValue (d : Deque) : Nat := block_size_ * d.blocks_

/-- `Deque::Size` (lines 292-300). -/
def Size (d : Deque) : Nat :=
  if d.right_ = d.EmptyValue then 0
  else if d.right_ ≥ d.left_ then d.right_ - d.left_ + 1
  else size_t_sub (block_size_ * d.blocks_) (d.left_ - d.right_ - 1)

/-- `Deque::Assign` (lines 81-97). -/
def Assign (d : Deque) (size : Nat) : Deque :=
  if size = 0 then
    { d with blocks_ := 0, left_ := 0, right_ := 0, data_ := [] }
  else
    let blocks := ((size + block_size_ - 1) % size_t_card) / block_size_
    { d with blocks_ := blocks, left_ := 0, right_ := size - 1,
             data_ := List.replicate blocks (List.replicate block_size_ 0) }

/-- The first loop of `Deque::Reallocate` (lines 105-115): the blocks moved into
`new_data`, in order.  `room` is `new_blocks - i`, the number of entries of
`new_data` not yet written; `j` is the loop variable. -/
def Reallocate.transfer (data_ : List (List Int)) (blocks_ target : Nat) :
    Nat → Nat → Option (List (List Int))
  | 0, _ => none
  | room + 1, j =>
    match data_[j]? with
    | none => none
    | some block =>
      if j = target then some [block]
      else
        match Reallocate.transfer data_ blocks_ target room (if j + 1 = blocks_ then 0 else j + 1) with
        | none => none
        | some rest => some (block :: rest)

/-- `Deque::Reallocate` (lines 99-129). -/
def Reallocate (d : Deque) (new_blocks : Nat) : Option Deque :=
  let size_before := d.Size
  match Reallocate.transfer d.data_ d.blocks_ (BlockByIndex d.right_) new_blocks
      (BlockByIndex d.left_) with
  | none => none
  | some moved =>
    let new_data := moved ++
      List.replicate (new_blocks - moved.length) (List.replicate block_size_ 0)
    let left := d.left_ - BlockByIndex d.left_ * block_size_
    some { left_ := left, right_ := size_t_sub (left + size_before) 1, blocks_ := new_blocks,
           data_ := new_data }

/-- `Deque::Deque()` (lines 135-137). -/
def new : Deque := Assign members 0

/-- `Deque::Deque(size_t)` (lines 157-159). -/
def ofSize (size : Nat) : Deque := Assign members size

/-- The loop of the initializer-list constructor (lines 165-169), from index `i` on. -/
def fill : Deque → Nat → List Int → Option Deque
  | d, _, [] => some d
  | d, i, x :: it =>
    match d.IntByIndexAssign i x with
    | none => none
    | some d' => fill d' (i + 1) it

/-- `Deque::Deque(std::initializer_list<int>)` (lines 161-170). -/
def ofList (list : List Int) : Option Deque :=
  fill (Assign members list.length) 0 list

/-- `Deque::Swap` (lines 177-182): the new states of `*this` and of `rhs`. -/
def Swap (d rhs : Deque) : Deque × Deque :=
  ({ left_ := rhs.left_, right_ := rhs.right_, blocks_ := rhs.blocks_, data_ := rhs.data_ },
   { left_ := d.left_, right_ := d.right_, blocks_ := d.blocks_, data_ := d.data_ })

/-- `Deque::Deque(Deque&&)` (lines 148-150): the new object and the moved-from `rhs`. -/
def move (rhs : Deque) : Deque × Deque := Swap members rhs

/-- `Deque::PushBack` (lines 184-213); `depth` bounds the nesting of calls. -/
def PushBack : Nat → Deque → Int → Option Deque
  | 0, _, _ => none
  | depth + 1, d, value =>
    if d.blocks_ = 0 then
      IntByIndexAssign { Assign d 1 with left_ := 0, right_ := 0 } 0 value
    else if d.left_ = d.EmptyValue then
      IntByIndexAssign { d with left_ := 0, right_ := 0 } 0 value
    else
      let new_index := if d.right_ + 1 = block_size_ * d.blocks_ then 0 else d.right_ + 1
      if ¬ (new_index ≤ d.left_ ∧ BlockByIndex d.left_ = BlockByIndex new_index) then
        IntByIndexAssign { d with right_ := new_index } new_index value
      else
        match Reallocate d (d.blocks_ * 2) with
        | none => none
        | some d' => PushBack depth d' value

/-- `Deque::PopBack` (lines 215-227). -/
def PopBack (d : Deque) : Deque :=
  if d.left_ = d.right_ then
    { d with left_ := d.EmptyValue, right_ := d.EmptyValue }
  else if d.right_ = 0 then
    { d with right_ := size_t_sub (block_size_ * d.blocks_) 1 }
  else
    { d with right_ := d.right_ - 1 }

/-- `Deque::PushFront` (lines 229-260); `depth` bounds the nesting of calls. -/
def PushFront : Nat → Deque → Int → Option Deque
  | 0, _, _ => none
  | depth + 1, d, value =>
    if d.blocks_ = 0 then
      IntByIndexAssign { Assign d 1 with left_ := 0, right_ := 0 } 0 value
    else if d.left_ = d.EmptyValue then
      IntByIndexAssign { d with left_ := 0, right_ := 0 } 0 value
    else
      let new_index := if d.left_ = 0 then block_size_ * d.blocks_ - 1 else d.left_ - 1
      if ¬ (d.right_ ≤ new_index ∧ BlockByIndex new_index = BlockByIndex d.right_) then
        IntByIndexAssign { d with left_ := new_index } new_index value
      else
        match Reallocate d (d.blocks_ * 2) with
        | none => none
        | some d' => PushFront depth d' value

/-- `Deque::PopFront` (lines 262-274). -/
def PopFront (d : Deque) : Deque :=
  if d.left_ = d.right_ then
    { d with left_ := d.EmptyValue, right_ := d.EmptyValue }
  else if d.left_ = size_t_sub (block_size_ * d.blocks_) 1 then
    { d with left_ := 0 }
  else
    { d with left_ := d.left_ + 1 }

/-- The slot `real_index` computed by both forms of `operator[]` (lines 277-280, 285-288). -/
def real_index (d : Deque) (ind : Nat) : Nat :=
  if d.left_ + ind ≥ block_size_ * d.blocks_ then d.left_ + ind - block_size_ * d.blocks_
  else d.left_ + ind

/-- `Deque::operator[] const` (lines 284-290). -/
def index (d : Deque) (ind : Nat) : Option Int := d.IntByIndex (d.real_index ind)

/-- The statement `d[ind] = value` through `Deque::operator[]` (lines 276-282). -/
def indexAssign (d : Deque) (ind : Nat) (value : Int) : Option Deque :=
  d.IntByIndexAssign (d.real_index ind) value

/-- The loop of the copy constructor (lines 143-145): `count` iterations from index `i`. -/
def copyLoop (rhs : Deque) : Nat → Nat → Deque → Option Deque
  | 0, _, d => some d
  | count + 1, i, d =>
    match rhs.index i with
    | none => none
    | some x =>
      match d.IntByIndexAssign i x with
      | none => none
      | some d' => copyLoop rhs count (i + 1) d'

/-- `Deque::Deque(const Deque&)` (lines 139-146). -/
def copy (rhs : Deque) : Option Deque :=
  copyLoop rhs rhs.Size 0 (Assign members rhs.Size)

/-- `Deque::Clear` (lines 302-304). -/
def Clear (d : Deque) : Deque := Assign d 0

end Deque

/-- One call of the four end operations. -/
inductive Op where
  | pushBack (value : Int)
  | pushFront (value : Int)
  | popBack
  | popFront
deriving DecidableEq

namespace Op

/-- The call on the deque. -/
def apply (depth : Nat) (d : Deque) : Op → Option Deque
  | pushBack value => d.PushBack depth value
  | pushFront value => d.PushFront depth value
  | popBack => some d.PopBack
  | popFront => some d.PopFront

/-- The same call on the reference list: `PushBack` appends, `PushFront` prepends,
`PopBack` drops the last element, `PopFront` drops the first. -/
def onReference : Op → List Int → List Int
  | pushBack value, r => r ++ [value]
  | pushFront value, r => value :: r
  | popBack, r => r.dropLast
  | popFront, r => r.tail

def isPush : Op → Bool
  | pushBack _ => true
  | pushFront _ => true
  | _ => false

def isPop : Op → Bool
  | popBack => true
  | popFront => true
  | _ => false

/-- A pop is issued only when `Size() > 0`. -/
def guard (d : Deque) (op : Op) : Bool := !op.isPop || decide (0 < d.Size)

end Op

namespace Deque

/-- The calls of `ops` one after the other. -/
def run (depth : Nat) : List Op → Deque → Option Deque
  | [], d => some d
  | op :: rest, d =>
    match op.apply depth d with
    | none => none
    | some d' => run depth rest d'

/-- The reference list after the calls of `ops`. -/
def reference : List Op → List Int → List Int
  | [], r => r
  | op :: rest, r => reference rest (op.onReference r)

/-- Every pop of `ops` is issued in a state with `Size() > 0`. -/
def popsGuarded (depth : Nat) : List Op → Deque → Bool
  | [], _ => true
  | op :: rest, d =>
    op.guard d &&
      match op.apply depth d with
      | none => true
      | some d' => popsGuarded depth rest d'

/-- The deque agrees with the list `r`: same length, same value at every position. -/
def Mirrors (d : Deque) (r : List Int) : Prop :=
  d.Size = r.length ∧ ∀ i, i < d.Size → d.index i = r[i]?

/-- `PushBack` of the values of a list, first to last. -/
def pushBackAll (depth : Nat) : List Int → Deque → Option Deque
  | [], d => some d
  | value :: rest, d =>
    match d.PushBack depth value with
    | none => none
    | some d' => pushBackAll depth rest d'

end Deque

namespace Deque

/-- Storage shape: `blocks_` blocks of `block_size_` values each. -/
structure Storage (d : Deque) : Prop where
  len : d.data_.length = d.blocks_
  blk : ∀ b ∈ d.data_, b.length = block_size_

/-- The representation invariant of `Deque`: the storage has `blocks_` blocks of
`block_size_` values; `left_` and `right_` are either both the empty sentinel or
both slots of the ring, and a wrapped range has its ends in different blocks. -/
structure Inv (d : Deque) : Prop where
  storage : Storage d
  shape : (d.left_ = block_size_ * d.blocks_ ∧ d.right_ = block_size_ * d.blocks_) ∨
    (d.left_ < block_size_ * d.blocks_ ∧ d.right_ < block_size_ * d.blocks_ ∧
      (d.right_ < d.left_ → d.right_ / block_size_ < d.left_ / block_size_))

/-- The walk of `Reallocate` from the block of `left_` to the block of `right_`
passes every block of the array. -/
def WalkAll (d : Deque) : Prop :=
  (d.left_ ≤ d.right_ ∧ d.left_ / block_size_ = 0 ∧ d.right_ / block_size_ + 1 = d.blocks_) ∨
  (d.right_ < d.left_ ∧ d.right_ / block_size_ + 1 = d.left_ / block_size_)

/-- The states a `Deque` object can be in: built by a constructor and changed by
the public operations.  `PopBack`, `PopFront` and writes through `operator[]`
are included without a guard (a write only where it hits allocated storage).
The sized constructions (`Deque(size_t)`, the initializer list, the copy) are
included for the sizes whose rounding to whole blocks fits `size_t`; the state
that a larger size gives, `Deque.ofSize (2 ^ 64 - 1)`, is not among them and is
examined on its own in the last section. -/
inductive Reachable : Deque → Prop
  | new : Reachable Deque.new
  | ofSize (size : Nat) : size + (block_size_ - 1) < size_t_card → Reachable (Deque.ofSize size)
  | ofList (list : List Int) (d : Deque) : list.length + (block_size_ - 1) < size_t_card →
      Deque.ofList list = some d → Reachable d
  | copy (rhs d : Deque) : Reachable rhs → rhs.Size + (block_size_ - 1) < size_t_card →
      Deque.copy rhs = some d → Reachable d
  | move_target (rhs : Deque) : Reachable rhs → Reachable (Deque.move rhs).1
  | move_source (rhs : Deque) : Reachable rhs → Reachable (Deque.move rhs).2
  | swap_this (d rhs : Deque) : Reachable d → Reachable rhs → Reachable (Deque.Swap d rhs).1
  | swap_rhs (d rhs : Deque) : Reachable d → Reachable rhs → Reachable (Deque.Swap d rhs).2
  | pushBack (depth : Nat) (d d' : Deque) (value : Int) : Reachable d →
      Deque.PushBack depth d value = some d' → Reachable d'
  | popBack (d : Deque) : Reachable d → Reachable d.PopBack
  | pushFront (depth : Nat) (d d' : Deque) (value : Int) : Reachable d →
      Deque.PushFront depth d value = some d' → Reachable d'
  | popFront (d : Deque) : Reachable d → Reachable d.PopFront
  | indexAssign (d d' : Deque) (ind : Nat) (value : Int) : Reachable d →
      Deque.indexAssign d ind value = some d' → Reachable d'
  | clear (d : Deque) : Reachable d → Reachable d.Clear

/-- Control of `PushBack` reaches line 211: both early returns (lines 185-198) are
passed and the test of line 205 fails, so `Reallocate(blocks_ * 2)` is called. -/
def PushBackGrows (d : Deque) : Prop :=
  d.blocks_ ≠ 0 ∧ d.left_ ≠ d.EmptyValue ∧
    ((if d.right_ + 1 = block_size_ * d.blocks_ then 0 else d.right_ + 1) ≤ d.left_ ∧
      BlockByIndex d.left_ =
        BlockByIndex (if d.right_ + 1 = block_size_ * d.blocks_ then 0 else d.right_ + 1))

instance (d : Deque) : Decidable (PushBackGrows d) := by
  unfold PushBackGrows; infer_instance

/-- Control of `PushFront` reaches line 258: both early returns (lines 230-243) are
passed and the test of line 252 fails, so `Reallocate(blocks_ * 2)` is called. -/
def PushFrontGrows (d : Deque) : Prop :=
  d.blocks_ ≠ 0 ∧ d.left_ ≠ d.EmptyValue ∧
    (d.right_ ≤ (if d.left_ = 0 then block_size_ * d.blocks_ - 1 else d.left_ - 1) ∧
      BlockByIndex (if d.left_ = 0 then block_size_ * d.blocks_ - 1 else d.left_ - 1) =
        BlockByIndex d.right_)

instance (d : Deque) : Decidable (PushFrontGrows d) := by
  unfold PushFrontGrows; infer_instance

/-- `Deque::PushBack` (lines 184-213) together with the number of calls of
`Reallocate` made before it returned. -/
def PushBackCalls : Nat → Deque → Int → Option (Deque × Nat)
  | 0, _, _ => none
  | depth + 1, d, value =>
    if d.blocks_ = 0 then
      (IntByIndexAssign { Assign d 1 with left_ := 0, right_ := 0 } 0 value).map (fun e => (e, 0))
    else if d.left_ = d.EmptyValue then
      (IntByIndexAssign { d with left_ := 0, right_ := 0 } 0 value).map (fun e => (e, 0))
    else
      let new_index := if d.right_ + 1 = block_size_ * d.blocks_ then 0 else d.right_ + 1
      if ¬ (new_index ≤ d.left_ ∧ BlockByIndex d.left_ = BlockByIndex new_index) then
        (IntByIndexAssign { d with right_ := new_index } new_index value).map (fun e => (e, 0))
      else
        match Reallocate d (d.blocks_ * 2) with
        | none => none
        | some d' =>
          match PushBackCalls depth d' value with
          | none => none
          | some (e, calls) => some (e, calls + 1)

/-- `Deque::PushFront` (lines 229-260) together with the number of calls of
`Reallocate` made before it returned. -/
def PushFrontCalls : Nat → Deque → Int → Option (Deque × Nat)
  | 0, _, _ => none
  | depth + 1, d, value =>
    if d.blocks_ = 0 then
      (IntByIndexAssign { Assign d 1 with left_ := 0, right_ := 0 } 0 value).map (fun e => (e, 0))
    else if d.left_ = d.EmptyValue then
      (IntByIndexAssign { d with left_ := 0, right_ := 0 } 0 value).map (fun e => (e, 0))
    else
      let new_index := if d.left_ = 0 then block_size_ * d.blocks_ - 1 else d.left_ - 1
      if ¬ (d.right_ ≤ new_index ∧ BlockByIndex new_index = BlockByIndex d.right_) then
        (IntByIndexAssign { d with left_ := new_index } new_index value).map (fun e => (e, 0))
      else
        match Reallocate d (d.blocks_ * 2) with
        | none => none
        | some d' =>
          match PushFrontCalls depth d' value with
          | none => none
          | some (e, calls) => some (e, calls + 1)

/-- The real slot `idx` lies in the occupied circular range from `left_` to `right_`. -/
def InRange (d : Deque) (idx : Nat) : Prop :=
  if d.left_ ≤ d.right_ then d.left_ ≤ idx ∧ idx ≤ d.right_
  else d.left_ ≤ idx ∨ idx ≤ d.right_

/-- The state after `Deque d(513); d.PopBack(); d.PushFront(7);`: two blocks, the
value 7 in the last slot, zeros in slots 0 to 511, and the range wrapped. -/
def wrapped_state : Deque :=
  { left_ := 1023, right_ := 511, blocks_ := 2,
    data_ := [List.replicate 512 0, (List.replicate 512 0).set 511 7] }

end Deque

/-! ## Storage and loop lemmas -/

namespace Deque

/-- The wrapping subtraction without a case split, in the form `omega` reads. -/
theorem size_t_sub_eq (a b : Nat) :
    size_t_sub a b = a + 2 ^ 64 - b - 2 ^ 64 * min 1 (a + 1 - b) := by
  unfold size_t_sub size_t_card
  split_ifs with h
  · have : min 1 (a + 1 - b) = 1 := by omega
    rw [this]; omega
  · have : min 1 (a + 1 - b) = 0 := by omega
    rw [this]; omega

theorem IntByIndex_congr {d e : Deque} (h : d.data_ = e.data_) (idx : Nat) :
    d.IntByIndex idx = e.IntByIndex idx := by
  simp [IntByIndex, h]

theorem IntByIndex_isSome {d : Deque} (hs : Storage d) {idx : Nat}
    (h : idx < block_size_ * d.blocks_) : ∃ x, d.IntByIndex idx = some x := by
  have hb : idx / block_size_ < d.data_.length := by
    rw [hs.len]; exact Nat.div_lt_of_lt_mul h
  have hbs : 0 < block_size_ := by decide
  simp only [IntByIndex, Convert, BlockByIndex]
  rw [List.getElem?_eq_getElem hb]
  have hl := hs.blk _ (List.getElem_mem hb)
  have ho : idx % block_size_ < (d.data_[idx / block_size_]).length := by
    rw [hl]; exact Nat.mod_lt _ hbs
  exact ⟨_, List.getElem?_eq_getElem ho⟩

theorem IntByIndexAssign_spec {d : Deque} (hs : Storage d) {idx : Nat}
    (h : idx < block_size_ * d.blocks_) (v : Int) :
    ∃ d', d.IntByIndexAssign idx v = some d' ∧ d'.left_ = d.left_ ∧ d'.right_ = d.right_ ∧
      d'.blocks_ = d.blocks_ ∧ Storage d' ∧ d'.IntByIndex idx = some v ∧
      ∀ idx', idx' ≠ idx → d'.IntByIndex idx' = d.IntByIndex idx' := by
  have hb : idx / block_size_ < d.data_.length := by
    rw [hs.len]; exact Nat.div_lt_of_lt_mul h
  have hbs : 0 < block_size_ := by decide
  have hl := hs.blk _ (List.getElem_mem hb)
  have ho : idx % block_size_ < (d.data_[idx / block_size_]).length := by
    rw [hl]; exact Nat.mod_lt _ hbs
  refine ⟨{ d with data_ := d.data_.set (idx / block_size_) ((d.data_[idx / block_size_]).set (idx % block_size_) v) }, ?_, rfl, rfl, rfl, ?_, ?_, ?_⟩
  · simp only [IntByIndexAssign, Convert, BlockByIndex]
    rw [List.getElem?_eq_getElem hb]
    simp [ho]
  · constructor
    · simpa using hs.len
    · intro b hbm
      rcases List.mem_or_eq_of_mem_set hbm with hm | rfl
      · exact hs.blk b hm
      · simpa using hl
  · simp only [IntByIndex, Convert, BlockByIndex]
    rw [List.getElem?_set_self hb]
    simp [ho]
  · intro idx' hne
    simp only [IntByIndex, Convert, BlockByIndex]
    by_cases hq : idx / block_size_ = idx' / block_size_
    · rw [← hq, List.getElem?_set_self hb, List.getElem?_eq_getElem hb]
      have hr : idx % block_size_ ≠ idx' % block_size_ := by
        intro hr
        apply hne
        rw [← Nat.div_add_mod idx' block_size_, ← Nat.div_add_mod idx block_size_, hq, hr]
      simp [List.getElem?_set_ne hr]
    · rw [List.getElem?_set_ne hq]


theorem transfer_straight (data : List (List Int)) (blocks target : Nat)
    (hlen : data.length = blocks) (ht : target < blocks) :
    ∀ room j, j ≤ target → target - j < room →
      Reallocate.transfer data blocks target room j = some ((data.drop j).take (target - j + 1)) := by
  intro room
  induction room with
  | zero => intro j _ h; omega
  | succ room ih =>
    intro j hj hroom
    have hjl : j < data.length := by omega
    rw [Reallocate.transfer, List.getElem?_eq_getElem hjl]
    by_cases hjt : j = target
    · subst hjt
      simp only [if_true, Nat.sub_self, Nat.zero_add]
      rw [List.drop_eq_getElem_cons hjl]
      rfl
    · have hne : ¬ (j + 1 = blocks) := by omega
      simp only [hjt, hne, if_false]
      rw [ih (j + 1) (by omega) (by omega)]
      have : target - j + 1 = (target - (j + 1) + 1) + 1 := by omega
      rw [this, List.drop_eq_getElem_cons hjl, List.take_succ_cons]

theorem transfer_wrapped (data : List (List Int)) (blocks target : Nat)
    (hlen : data.length = blocks) :
    ∀ k room j, blocks - j = k → target < j → j < blocks → (blocks - j) + target < room →
      Reallocate.transfer data blocks target room j = some (data.drop j ++ data.take (target + 1)) := by
  intro k
  induction k with
  | zero => intro room j hk _ hj _; omega
  | succ k ih =>
    intro room j hk htj hj hroom
    have hjl : j < data.length := by omega
    obtain ⟨room, rfl⟩ : ∃ r, room = r + 1 := ⟨room - 1, by omega⟩
    rw [Reallocate.transfer, List.getElem?_eq_getElem hjl]
    have hjt : ¬ (j = target) := by omega
    simp only [hjt, if_false]
    by_cases hlast : j + 1 = blocks
    · simp only [hlast, if_true]
      rw [transfer_straight data blocks target hlen (by omega) room 0 (by omega) (by omega)]
      have hd : data.drop (j + 1) = [] := by
        apply List.drop_eq_nil_of_le; omega
      rw [List.drop_eq_getElem_cons hjl, hd]
      simp
    · simp only [hlast, if_false]
      rw [ih room (j + 1) (by omega) (by omega) (by omega) (by omega)]
      rw [List.drop_eq_getElem_cons hjl]
      rfl


theorem block_size_eq : block_size_ = 512 := rfl

theorem transfer_all (data : List (List Int)) (blocks target j : Nat)
    (hlen : data.length = blocks) (hj : j < blocks)
    (h : (j = 0 ∧ target + 1 = blocks) ∨ target + 1 = j) :
    Reallocate.transfer data blocks target (blocks * 2) j = some (data.drop j ++ data.take j) := by
  rcases h with ⟨rfl, ht⟩ | ht
  · rw [transfer_straight data blocks target hlen (by omega) (blocks * 2) 0 (by omega) (by omega)]
    have : target - 0 + 1 = data.length := by omega
    simp [this]
    omega
  · rw [transfer_wrapped data blocks target hlen (blocks - j) (blocks * 2) j rfl (by omega) hj
      (by omega), ht]

theorem rotated_getElem? (data zs : List (List Int)) (j q : Nat) (hj : j < data.length)
    (hq : q < data.length) :
    (data.drop j ++ data.take j ++ zs)[q]? =
      data[if j + q < data.length then j + q else j + q - data.length]? := by
  have hl : (data.drop j ++ data.take j).length = data.length := by
    simp; omega
  rw [List.getElem?_append_left (by omega)]
  by_cases hc : j + q < data.length
  · rw [if_pos hc, List.getElem?_append_left (by simp; omega), List.getElem?_drop]
  · rw [if_neg hc, List.getElem?_append_right (by simp; omega), List.getElem?_take_of_lt (by simp; omega)]
    congr 1
    simp; omega

theorem IntByIndex_eq_of {d e : Deque} {i k : Nat}
    (hb : d.data_[i / block_size_]? = e.data_[k / block_size_]?)
    (ho : i % block_size_ = k % block_size_) : d.IntByIndex i = e.IntByIndex k := by
  simp only [IntByIndex, Convert, BlockByIndex, hb, ho]


theorem Size_bounds {d : Deque} (hl : d.left_ < block_size_ * d.blocks_)
    (hr : d.right_ < block_size_ * d.blocks_) (hw : WalkAll d) :
    1 ≤ d.Size ∧ d.left_ % block_size_ + d.Size ≤ block_size_ * d.blocks_ := by
  simp only [WalkAll, Size, EmptyValue, block_size_eq, size_t_sub_eq] at *
  split_ifs <;> omega

theorem Reallocate_spec {d : Deque} (hi : Inv d) (hl : d.left_ < block_size_ * d.blocks_)
    (hr : d.right_ < block_size_ * d.blocks_) (hw : WalkAll d) :
    ∃ d1, d.Reallocate (d.blocks_ * 2) = some d1 ∧ d1.left_ = d.left_ % block_size_ ∧
      d1.right_ = d.left_ % block_size_ + d.Size - 1 ∧ d1.blocks_ = d.blocks_ * 2 ∧
      Storage d1 ∧
      (∀ i, i < d.Size → d1.IntByIndex (d.left_ % block_size_ + i) = d.IntByIndex (d.real_index i)) := by
  have hlen := hi.storage.len
  have hj : d.left_ / block_size_ < d.blocks_ := Nat.div_lt_of_lt_mul hl
  have hjl : d.left_ / block_size_ < d.data_.length := by omega
  have htr := transfer_all d.data_ d.blocks_ (d.right_ / block_size_) (d.left_ / block_size_) hlen hj
    (by simp only [WalkAll] at hw; omega)
  have hml : (d.data_.drop (d.left_ / block_size_) ++ d.data_.take (d.left_ / block_size_)).length
      = d.blocks_ := by
    simp; omega
  obtain ⟨hs1, hs2⟩ := Size_bounds hl hr hw
  refine ⟨{ left_ := d.left_ - BlockByIndex d.left_ * block_size_, right_ := size_t_sub (d.left_ - BlockByIndex d.left_ * block_size_ + d.Size) 1, blocks_ := d.blocks_ * 2, data_ := (d.data_.drop (d.left_ / block_size_) ++ d.data_.take (d.left_ / block_size_)) ++ List.replicate (d.blocks_ * 2 - (d.data_.drop (d.left_ / block_size_) ++ d.data_.take (d.left_ / block_size_)).length) (List.replicate block_size_ 0) }, ?_, ?_, ?_, rfl, ?_, ?_⟩
  · simp only [Reallocate, BlockByIndex, htr]
  · simp only [BlockByIndex, block_size_eq, size_t_sub_eq]; omega
  · simp only [BlockByIndex, block_size_eq, size_t_sub_eq]; omega
  · constructor
    · simp only [List.length_append, List.length_replicate, hml]; omega
    · intro b hb
      simp only [List.mem_append, List.mem_replicate] at hb
      rcases hb with (hb | hb) | hb
      · exact hi.storage.blk b (List.mem_of_mem_drop hb)
      · exact hi.storage.blk b (List.mem_of_mem_take hb)
      · rw [hb.2]; simp
  · intro i hi'
    apply IntByIndex_eq_of
    · have hq : (d.left_ % block_size_ + i) / block_size_ < d.data_.length := by
        simp only [block_size_eq, size_t_sub_eq] at *; omega
      simp only
      rw [rotated_getElem? d.data_ _ _ _ hjl hq]
      congr 1
      simp only [real_index, block_size_eq, size_t_sub_eq] at *
      split_ifs <;> omega
    · simp only [real_index, block_size_eq, size_t_sub_eq] at *
      split_ifs <;> omega


/-- The non-growing branch of `PushBack` (lines 200-209) on a non-empty deque. -/
theorem PushBack_step {d : Deque} (hs : Storage d) (hl : d.left_ < block_size_ * d.blocks_)
    (hr : d.right_ < block_size_ * d.blocks_)
    (hng : ¬ ((if d.right_ + 1 = block_size_ * d.blocks_ then 0 else d.right_ + 1) ≤ d.left_ ∧
      BlockByIndex d.left_ =
        BlockByIndex (if d.right_ + 1 = block_size_ * d.blocks_ then 0 else d.right_ + 1)))
    (v : Int) (depth : Nat) :
    ∃ d', PushBack (depth + 1) d v = some d' ∧ Inv d' ∧ d'.blocks_ = d.blocks_ ∧
      d'.left_ < block_size_ * d'.blocks_ ∧
      d'.Size = d.Size + 1 ∧ d'.index d.Size = some v ∧
      ∀ i, i < d.Size → d'.index i = d.index i := by
  have hb : ¬ d.blocks_ = 0 := by
    intro h; rw [h] at hl; simp at hl
  have he : ¬ d.left_ = d.EmptyValue := by
    simp only [EmptyValue]; omega
  generalize hn : (if d.right_ + 1 = block_size_ * d.blocks_ then 0 else d.right_ + 1) = n at hng
  have hn' : (d.right_ + 1 = block_size_ * d.blocks_ ∧ n = 0) ∨
      (d.right_ + 1 < block_size_ * d.blocks_ ∧ n = d.right_ + 1) := by
    split_ifs at hn <;> omega
  have hnlt : n < block_size_ * d.blocks_ := by omega
  have hs0 : Storage { d with right_ := n } := ⟨hs.len, hs.blk⟩
  obtain ⟨d', hd', h1, h2, h3, h4, h5, h6⟩ := IntByIndexAssign_spec hs0 hnlt v
  simp only at h1 h2 h3
  have hsz : d'.Size = d.Size + 1 := by
    simp only [Size, EmptyValue, h1, h2, h3, BlockByIndex, block_size_eq, size_t_sub_eq] at *
    split_ifs <;> omega
  refine ⟨d', ?_, ?_, h3, ?_, hsz, ?_, ?_⟩
  · simp only [PushBack, hb, he, if_false, hn, hng, not_false_eq_true, if_true]
    exact hd'
  · refine ⟨h4, Or.inr ?_⟩
    simp only [h1, h2, h3, BlockByIndex, block_size_eq, size_t_sub_eq] at *
    omega
  · rw [h1, h3]; exact hl
  · have : d'.real_index d.Size = n := by
      simp only [real_index, Size, EmptyValue, h1, h2, h3, BlockByIndex, block_size_eq, size_t_sub_eq] at *
      split_ifs <;> omega
    simp only [index, this, h5]
  · intro i hi
    have hne : d'.real_index i ≠ n := by
      simp only [real_index, Size, EmptyValue, h1, h2, h3, BlockByIndex, block_size_eq, size_t_sub_eq] at *
      split_ifs at * <;> omega
    have hsame : d'.real_index i = d.real_index i := by
      simp only [real_index, h1, h3]
    simp only [index]
    rw [h6 _ hne, hsame]
    rfl


theorem Assign_one (d : Deque) :
    Assign d 1 = { left_ := 0, right_ := 0, blocks_ := 1, data_ := [List.replicate block_size_ 0] } := by
  have h : ((1 + block_size_ - 1) % size_t_card) / block_size_ = 1 := by
    norm_num [block_size_, size_t_card]
  simp only [Assign, h, one_ne_zero, if_false]
  rfl

/-- Both first branches of a push (lines 185-198): the deque is empty and the
value goes to slot 0. -/
theorem push_empty {d : Deque} (hi : Inv d) (v : Int) :
    ∃ d', (if d.blocks_ = 0 then
            IntByIndexAssign { Assign d 1 with left_ := 0, right_ := 0 } 0 v
          else IntByIndexAssign { d with left_ := 0, right_ := 0 } 0 v) = some d' ∧
      Inv d' ∧ d'.blocks_ = max 1 d.blocks_ ∧ d'.left_ = 0 ∧ d'.right_ = 0 ∧
      d'.index 0 = some v := by
  by_cases hb : d.blocks_ = 0
  · rw [if_pos hb, Assign_one]
    have hs0 : Storage { left_ := 0, right_ := 0, blocks_ := 1, data_ := [List.replicate block_size_ 0] } :=
      ⟨rfl, by simp⟩
    obtain ⟨d', hd', h1, h2, h3, h4, h5, -⟩ :=
      IntByIndexAssign_spec hs0 (show (0 : Nat) < block_size_ * 1 by simp [block_size_]) v
    simp only at h1 h2 h3
    refine ⟨d', hd', ⟨h4, Or.inr ?_⟩, by rw [h3, hb]; rfl, h1, h2, ?_⟩
    · rw [h1, h2, h3]; simp [block_size_]
    · simp only [index, real_index, h1, h3, block_size_eq, size_t_sub_eq]
      simpa using h5
  · rw [if_neg hb]
    have hs0 : Storage { d with left_ := 0, right_ := 0 } := ⟨hi.storage.len, hi.storage.blk⟩
    have hpos : 0 < block_size_ * d.blocks_ := by
      simp only [block_size_eq, size_t_sub_eq]; omega
    obtain ⟨d', hd', h1, h2, h3, h4, h5, -⟩ := IntByIndexAssign_spec hs0 hpos v
    simp only at h1 h2 h3
    refine ⟨d', hd', ⟨h4, Or.inr ?_⟩, by rw [h3]; omega, h1, h2, ?_⟩
    · rw [h1, h2, h3]; simp only [block_size_eq, size_t_sub_eq] at *; omega
    · have : d'.real_index 0 = 0 := by
        simp only [real_index, h1, h3, block_size_eq, size_t_sub_eq] at *
        split_ifs <;> omega
      simp only [index, this, h5]

theorem Size_empty {d : Deque} (he : d.right_ = block_size_ * d.blocks_) : d.Size = 0 := by
  simp [Size, EmptyValue, he]

theorem Size_single {d : Deque} (hl : d.left_ = 0) (hr : d.right_ = 0)
    (hb : 0 < d.blocks_) : d.Size = 1 := by
  simp only [Size, EmptyValue, hl, hr, block_size_eq, size_t_sub_eq]
  split_ifs <;> omega

/-- The growing branch of `PushBack` is taken only when the walk of `Reallocate`
passes every block. -/
theorem PushBack_grow_WalkAll {d : Deque} (hl : d.left_ < block_size_ * d.blocks_)
    (hwrap : d.right_ < d.left_ → d.right_ / block_size_ < d.left_ / block_size_)
    (hg : (if d.right_ + 1 = block_size_ * d.blocks_ then 0 else d.right_ + 1) ≤ d.left_ ∧
      BlockByIndex d.left_ =
        BlockByIndex (if d.right_ + 1 = block_size_ * d.blocks_ then 0 else d.right_ + 1)) :
    WalkAll d := by
  simp only [WalkAll, BlockByIndex, block_size_eq, size_t_sub_eq] at *
  split_ifs at hg <;> omega

/-- `PushBack` returns within call depth two, keeps the invariant, appends the
value and keeps the values before it. -/
theorem PushBack_spec {d : Deque} (hi : Inv d) (v : Int) (depth : Nat) :
    ∃ d', PushBack (depth + 2) d v = some d' ∧ Inv d' ∧
      d'.left_ < block_size_ * d'.blocks_ ∧
      (d'.blocks_ = d.blocks_ ∨ d'.blocks_ = max 1 (2 * d.blocks_)) ∧
      d'.Size = d.Size + 1 ∧ d'.index d.Size = some v ∧
      ∀ i, i < d.Size → d'.index i = d.index i := by
  rcases hi.shape with he | ⟨hl, hr, hwrap⟩
  · obtain ⟨d', hd', h1, h2, h3, h4, h5⟩ := push_empty hi v
    have hsz : d.Size = 0 := Size_empty he.2
    have hb' : 0 < d'.blocks_ := by rw [h2]; omega
    refine ⟨d', ?_, h1, ?_, ?_, ?_, ?_, ?_⟩
    · rw [PushBack]
      by_cases hb : d.blocks_ = 0
      · simpa [hb] using hd'
      · have : d.left_ = d.EmptyValue := he.1
        simpa [hb, this] using hd'
    · rw [h3]; simp only [block_size_eq, size_t_sub_eq]; omega
    · rw [h2]
      rcases Nat.eq_zero_or_pos d.blocks_ with h0 | h0
      · right; rw [h0]
      · left; omega
    · rw [hsz, Size_single h3 h4 hb']
    · rw [hsz]; exact h5
    · intro i hi; omega
  · by_cases hg : (if d.right_ + 1 = block_size_ * d.blocks_ then 0 else d.right_ + 1) ≤ d.left_ ∧
        BlockByIndex d.left_ =
          BlockByIndex (if d.right_ + 1 = block_size_ * d.blocks_ then 0 else d.right_ + 1)
    · have hw := PushBack_grow_WalkAll hl hwrap hg
      obtain ⟨hz1, hz2⟩ := Size_bounds hl hr hw
      obtain ⟨d1, hd1, g1, g2, g3, g4, g5⟩ := Reallocate_spec hi hl hr hw
      have hl1 : d1.left_ < block_size_ * d1.blocks_ := by
        simp only [g1, g3, block_size_eq, size_t_sub_eq] at *; omega
      have hr1 : d1.right_ < block_size_ * d1.blocks_ := by
        simp only [g2, g3, block_size_eq, size_t_sub_eq] at *; omega
      have hng1 : ¬ ((if d1.right_ + 1 = block_size_ * d1.blocks_ then 0 else d1.right_ + 1)
            ≤ d1.left_ ∧ BlockByIndex d1.left_ =
          BlockByIndex (if d1.right_ + 1 = block_size_ * d1.blocks_ then 0 else d1.right_ + 1)) := by
        simp only [g1, g2, g3, BlockByIndex, block_size_eq, size_t_sub_eq] at *
        split_ifs <;> omega
      have hsz1 : d1.Size = d.Size := by
        simp only [Size, EmptyValue, g1, g2, g3, block_size_eq, size_t_sub_eq] at *
        split_ifs <;> omega
      obtain ⟨d', hd', k1, k2, k3, k4, k5, k6⟩ := PushBack_step g4 hl1 hr1 hng1 v depth
      have hb : ¬ d.blocks_ = 0 := by
        intro h; rw [h] at hl; simp at hl
      have he : ¬ d.left_ = d.EmptyValue := by
        simp only [EmptyValue]; omega
      refine ⟨d', ?_, k1, k3, ?_, ?_, ?_, ?_⟩
      · rw [PushBack]
        simp only [hb, he, if_false, hg, and_self, not_true_eq_false, hd1]
        exact hd'
      · right; rw [k2, g3]; omega
      · rw [k4, hsz1]
      · rw [← hsz1]; exact k5
      · intro i hi'
        rw [k6 i (by omega)]
        have : d1.real_index i = d.left_ % block_size_ + i := by
          simp only [real_index, g1, g3, block_size_eq, size_t_sub_eq] at *
          split_ifs <;> omega
        simp only [index, this]
        exact g5 i hi'
    · obtain ⟨d', hd', k1, k2, k3, k4, k5, k6⟩ := PushBack_step hi.storage hl hr hg v (depth + 1)
      exact ⟨d', hd', k1, k3, Or.inl k2, k4, k5, k6⟩


/-- The non-growing branch of `PushFront` (lines 245-256) on a non-empty deque. -/
theorem PushFront_step {d : Deque} (hs : Storage d) (hl : d.left_ < block_size_ * d.blocks_)
    (hr : d.right_ < block_size_ * d.blocks_)
    (hng : ¬ (d.right_ ≤ (if d.left_ = 0 then block_size_ * d.blocks_ - 1 else d.left_ - 1) ∧
      BlockByIndex (if d.left_ = 0 then block_size_ * d.blocks_ - 1 else d.left_ - 1) =
        BlockByIndex d.right_))
    (v : Int) (depth : Nat) :
    ∃ d', PushFront (depth + 1) d v = some d' ∧ Inv d' ∧ d'.blocks_ = d.blocks_ ∧
      d'.left_ < block_size_ * d'.blocks_ ∧
      d'.Size = d.Size + 1 ∧ d'.index 0 = some v ∧
      ∀ i, i < d.Size → d'.index (i + 1) = d.index i := by
  have hb : ¬ d.blocks_ = 0 := by
    intro h; rw [h] at hl; simp at hl
  have he : ¬ d.left_ = d.EmptyValue := by
    simp only [EmptyValue]; omega
  generalize hn : (if d.left_ = 0 then block_size_ * d.blocks_ - 1 else d.left_ - 1) = n at hng
  have hn' : (d.left_ = 0 ∧ n = block_size_ * d.blocks_ - 1) ∨ (0 < d.left_ ∧ n = d.left_ - 1) := by
    split_ifs at hn <;> omega
  have hnlt : n < block_size_ * d.blocks_ := by omega
  have hs0 : Storage { d with left_ := n } := ⟨hs.len, hs.blk⟩
  obtain ⟨d', hd', h1, h2, h3, h4, h5, h6⟩ := IntByIndexAssign_spec hs0 hnlt v
  simp only at h1 h2 h3
  have hsz : d'.Size = d.Size + 1 := by
    simp only [Size, EmptyValue, h1, h2, h3, BlockByIndex, block_size_eq, size_t_sub_eq] at *
    split_ifs <;> omega
  refine ⟨d', ?_, ?_, h3, ?_, hsz, ?_, ?_⟩
  · simp only [PushFront, hb, he, if_false, hn, hng, not_false_eq_true, if_true]
    exact hd'
  · refine ⟨h4, Or.inr ?_⟩
    simp only [h1, h2, h3, BlockByIndex, block_size_eq, size_t_sub_eq] at *
    omega
  · rw [h1, h3]; exact hnlt
  · have : d'.real_index 0 = n := by
      simp only [real_index, h1, h3, block_size_eq, size_t_sub_eq] at *
      split_ifs <;> omega
    simp only [index, this, h5]
  · intro i hi
    have hsame : d'.real_index (i + 1) = d.real_index i := by
      simp only [real_index, Size, EmptyValue, h1, h2, h3, BlockByIndex, block_size_eq, size_t_sub_eq] at *
      split_ifs at * <;> omega
    have hne : d.real_index i ≠ n := by
      simp only [real_index, Size, EmptyValue, h1, h2, h3, BlockByIndex, block_size_eq, size_t_sub_eq] at *
      split_ifs at * <;> omega
    simp only [index]
    rw [hsame, h6 _ hne]
    rfl

/-- The growing branch of `PushFront` is taken only when the walk of `Reallocate`
passes every block. -/
theorem PushFront_grow_WalkAll {d : Deque} (hr : d.right_ < block_size_ * d.blocks_)
    (hwrap : d.right_ < d.left_ → d.right_ / block_size_ < d.left_ / block_size_)
    (hg : d.right_ ≤ (if d.left_ = 0 then block_size_ * d.blocks_ - 1 else d.left_ - 1) ∧
      BlockByIndex (if d.left_ = 0 then block_size_ * d.blocks_ - 1 else d.left_ - 1) =
        BlockByIndex d.right_) :
    WalkAll d := by
  simp only [WalkAll, BlockByIndex, block_size_eq, size_t_sub_eq] at *
  split_ifs at hg <;> omega

/-- `PushFront` returns within call depth two, keeps the invariant, prepends the
value and shifts the values after it by one position. -/
theorem PushFront_spec {d : Deque} (hi : Inv d) (v : Int) (depth : Nat) :
    ∃ d', PushFront (depth + 2) d v = some d' ∧ Inv d' ∧
      d'.left_ < block_size_ * d'.blocks_ ∧
      (d'.blocks_ = d.blocks_ ∨ d'.blocks_ = max 1 (2 * d.blocks_)) ∧
      d'.Size = d.Size + 1 ∧ d'.index 0 = some v ∧
      ∀ i, i < d.Size → d'.index (i + 1) = d.index i := by
  rcases hi.shape with he | ⟨hl, hr, hwrap⟩
  · obtain ⟨d', hd', h1, h2, h3, h4, h5⟩ := push_empty hi v
    have hsz : d.Size = 0 := Size_empty he.2
    have hb' : 0 < d'.blocks_ := by rw [h2]; omega
    refine ⟨d', ?_, h1, ?_, ?_, ?_, h5, ?_⟩
    · rw [PushFront]
      by_cases hb : d.blocks_ = 0
      · simpa [hb] using hd'
      · have : d.left_ = d.EmptyValue := he.1
        simpa [hb, this] using hd'
    · rw [h3]; simp only [block_size_eq, size_t_sub_eq]; omega
    · rw [h2]
      rcases Nat.eq_zero_or_pos d.blocks_ with h0 | h0
      · right; rw [h0]
      · left; omega
    · rw [hsz, Size_single h3 h4 hb']
    · intro i hi; omega
  · by_cases hg : d.right_ ≤ (if d.left_ = 0 then block_size_ * d.blocks_ - 1 else d.left_ - 1) ∧
        BlockByIndex (if d.left_ = 0 then block_size_ * d.blocks_ - 1 else d.left_ - 1) =
          BlockByIndex d.right_
    · have hw := PushFront_grow_WalkAll hr hwrap hg
      obtain ⟨hz1, hz2⟩ := Size_bounds hl hr hw
      obtain ⟨d1, hd1, g1, g2, g3, g4, g5⟩ := Reallocate_spec hi hl hr hw
      have hl1 : d1.left_ < block_size_ * d1.blocks_ := by
        simp only [g1, g3, block_size_eq, size_t_sub_eq] at *; omega
      have hr1 : d1.right_ < block_size_ * d1.blocks_ := by
        simp only [g2, g3, block_size_eq, size_t_sub_eq] at *; omega
      have hng1 : ¬ (d1.right_ ≤ (if d1.left_ = 0 then block_size_ * d1.blocks_ - 1 else d1.left_ - 1) ∧
          BlockByIndex (if d1.left_ = 0 then block_size_ * d1.blocks_ - 1 else d1.left_ - 1) =
            BlockByIndex d1.right_) := by
        simp only [g1, g2, g3, BlockByIndex, block_size_eq, size_t_sub_eq] at *
        split_ifs <;> omega
      have hsz1 : d1.Size = d.Size := by
        simp only [Size, EmptyValue, g1, g2, g3, block_size_eq, size_t_sub_eq] at *
        split_ifs <;> omega
      obtain ⟨d', hd', k1, k2, k3, k4, k5, k6⟩ := PushFront_step g4 hl1 hr1 hng1 v depth
      have hb : ¬ d.blocks_ = 0 := by
        intro h; rw [h] at hl; simp at hl
      have he : ¬ d.left_ = d.EmptyValue := by
        simp only [EmptyValue]; omega
      refine ⟨d', ?_, k1, k3, ?_, ?_, k5, ?_⟩
      · rw [PushFront]
        simp only [hb, he, if_false, hg, and_self, not_true_eq_false, hd1]
        exact hd'
      · right; rw [k2, g3]; omega
      · rw [k4, hsz1]
      · intro i hi'
        rw [k6 i (by omega)]
        have : d1.real_index i = d.left_ % block_size_ + i := by
          simp only [real_index, g1, g3, block_size_eq, size_t_sub_eq] at *
          split_ifs <;> omega
        simp only [index, this]
        exact g5 i hi'
    · obtain ⟨d', hd', k1, k2, k3, k4, k5, k6⟩ := PushFront_step hi.storage hl hr hg v (depth + 1)
      exact ⟨d', hd', k1, k3, Or.inl k2, k4, k5, k6⟩


/-- Under the invariant the deque is empty exactly at the sentinel. -/
theorem Size_eq_zero_iff {d : Deque} (hi : Inv d) :
    d.Size = 0 ↔ d.left_ = d.EmptyValue ∧ d.right_ = d.EmptyValue := by
  have hsh := hi.shape
  simp only [Size, EmptyValue, block_size_eq, size_t_sub_eq] at *
  split_ifs <;> constructor <;> intro h <;> first | omega | contradiction

theorem Size_le {d : Deque} (hi : Inv d) : d.Size ≤ block_size_ * d.blocks_ := by
  have hsh := hi.shape
  simp only [Size, EmptyValue, block_size_eq, size_t_sub_eq] at *
  split_ifs <;> omega

theorem occupied_of_Size_pos {d : Deque} (hi : Inv d) (h : 0 < d.Size) :
    d.left_ < block_size_ * d.blocks_ ∧ d.right_ < block_size_ * d.blocks_ := by
  have hsh := hi.shape
  simp only [Size, EmptyValue, block_size_eq, size_t_sub_eq] at *
  split_ifs at h <;> omega

theorem real_index_lt {d : Deque} (hi : Inv d) {i : Nat} (h : i < d.Size) :
    d.real_index i < block_size_ * d.blocks_ := by
  have hsh := hi.shape
  simp only [Size, EmptyValue, real_index, block_size_eq, size_t_sub_eq] at *
  split_ifs at * <;> omega

theorem real_index_inj {d : Deque} (hi : Inv d) {i j : Nat} (h : i < d.Size) (hj : j < d.Size)
    (hne : i ≠ j) : d.real_index i ≠ d.real_index j := by
  have hsh := hi.shape
  simp only [Size, EmptyValue, real_index, block_size_eq, size_t_sub_eq] at *
  split_ifs at * <;> omega

theorem index_isSome {d : Deque} (hi : Inv d) {i : Nat} (h : i < d.Size) :
    ∃ x, d.index i = some x :=
  IntByIndex_isSome hi.storage (real_index_lt hi h)

/-- `PopBack` keeps the invariant and the storage; on a non-empty deque it
drops the last position and keeps the others. -/
theorem PopBack_spec {d : Deque} (hi : Inv d) :
    Inv d.PopBack ∧ d.PopBack.blocks_ = d.blocks_ ∧ d.PopBack.data_ = d.data_ ∧
      d.PopBack.Size = d.Size - 1 ∧
      (∀ i, i < d.Size - 1 → d.PopBack.index i = d.index i) ∧
      (d.Size ≤ 1 → d.PopBack.left_ = block_size_ * d.blocks_ ∧
        d.PopBack.right_ = block_size_ * d.blocks_) := by
  have hsh := hi.shape
  have hst := hi.storage
  unfold PopBack
  split_ifs with h1 h2
  · refine ⟨⟨⟨hst.len, hst.blk⟩, Or.inl ⟨rfl, rfl⟩⟩, rfl, rfl, ?_, ?_, ?_⟩
    · simp only [Size, EmptyValue, block_size_eq, size_t_sub_eq] at *
      split_ifs <;> omega
    · intro i hlt
      simp only [Size, EmptyValue, block_size_eq, size_t_sub_eq] at *
      split_ifs at hlt <;> omega
    · intro _; exact ⟨rfl, rfl⟩
  · refine ⟨⟨⟨hst.len, hst.blk⟩, ?_⟩, rfl, rfl, ?_, ?_, ?_⟩
    · simp only [block_size_eq, size_t_sub_eq] at *; omega
    · simp only [Size, EmptyValue, block_size_eq, size_t_sub_eq] at *
      split_ifs <;> omega
    · intro i _; rfl
    · simp only [Size, EmptyValue, block_size_eq, size_t_sub_eq] at *
      split_ifs <;> omega
  · refine ⟨⟨⟨hst.len, hst.blk⟩, ?_⟩, rfl, rfl, ?_, ?_, ?_⟩
    · simp only [block_size_eq, size_t_sub_eq] at *; omega
    · simp only [Size, EmptyValue, block_size_eq, size_t_sub_eq] at *
      split_ifs <;> omega
    · intro i _; rfl
    · simp only [Size, EmptyValue, block_size_eq, size_t_sub_eq] at *
      split_ifs <;> omega

/-- `PopFront` keeps the invariant and the storage; on a non-empty deque it
drops the first position and shifts the others down by one. -/
theorem PopFront_spec {d : Deque} (hi : Inv d) :
    Inv d.PopFront ∧ d.PopFront.blocks_ = d.blocks_ ∧ d.PopFront.data_ = d.data_ ∧
      d.PopFront.Size = d.Size - 1 ∧
      (∀ i, i < d.Size - 1 → d.PopFront.index i = d.index (i + 1)) ∧
      (d.Size ≤ 1 → d.PopFront.left_ = block_size_ * d.blocks_ ∧
        d.PopFront.right_ = block_size_ * d.blocks_) := by
  have hsh := hi.shape
  have hst := hi.storage
  unfold PopFront
  split_ifs with h1 h2
  · refine ⟨⟨⟨hst.len, hst.blk⟩, Or.inl ⟨rfl, rfl⟩⟩, rfl, rfl, ?_, ?_, ?_⟩
    · simp only [Size, EmptyValue, block_size_eq, size_t_sub_eq] at *
      split_ifs <;> omega
    · intro i hlt
      simp only [Size, EmptyValue, block_size_eq, size_t_sub_eq] at *
      split_ifs at hlt <;> omega
    · intro _; exact ⟨rfl, rfl⟩
  · refine ⟨⟨⟨hst.len, hst.blk⟩, ?_⟩, rfl, rfl, ?_, ?_, ?_⟩
    · simp only [block_size_eq, size_t_sub_eq] at *; omega
    · simp only [Size, EmptyValue, block_size_eq, size_t_sub_eq] at *
      split_ifs <;> omega
    · intro i hlt
      have : real_index { d with left_ := 0 } i = d.real_index (i + 1) := by
        simp only [Size, EmptyValue, real_index, block_size_eq, size_t_sub_eq] at *
        split_ifs at * <;> omega
      simp only [index, this]
      rfl
    · simp only [Size, EmptyValue, block_size_eq, size_t_sub_eq] at *
      split_ifs <;> omega
  · refine ⟨⟨⟨hst.len, hst.blk⟩, ?_⟩, rfl, rfl, ?_, ?_, ?_⟩
    · simp only [block_size_eq, size_t_sub_eq] at *; omega
    · simp only [Size, EmptyValue, block_size_eq, size_t_sub_eq] at *
      split_ifs <;> omega
    · intro i hlt
      have : real_index { d with left_ := d.left_ + 1 } i = d.real_index (i + 1) := by
        simp only [Size, EmptyValue, real_index, block_size_eq, size_t_sub_eq] at *
        split_ifs at * <;> omega
      simp only [index, this]
      rfl
    · simp only [Size, EmptyValue, block_size_eq, size_t_sub_eq] at *
      split_ifs <;> omega

/-- A write through `operator[]` at a live position changes that position only. -/
theorem indexAssign_spec {d : Deque} (hi : Inv d) {i : Nat} (h : i < d.Size) (v : Int) :
    ∃ d', d.indexAssign i v = some d' ∧ d'.left_ = d.left_ ∧ d'.right_ = d.right_ ∧
      d'.blocks_ = d.blocks_ ∧ Inv d' ∧ d'.Size = d.Size ∧ d'.index i = some v ∧
      ∀ j, j < d.Size → j ≠ i → d'.index j = d.index j := by
  obtain ⟨d', hd', h1, h2, h3, h4, h5, h6⟩ :=
    IntByIndexAssign_spec hi.storage (real_index_lt hi h) v
  have hri : ∀ k, d'.real_index k = d.real_index k := by
    intro k; simp only [real_index, h1, h3]
  refine ⟨d', hd', h1, h2, h3, ⟨h4, ?_⟩, ?_, ?_, ?_⟩
  · rw [h1, h2, h3]; exact hi.shape
  · simp only [Size, EmptyValue, h1, h2, h3]
  · simp only [index, hri, h5]
  · intro j hj hne
    simp only [index, hri]
    exact h6 _ (real_index_inj hi hj h hne)

/-- Any write through `IntByIndex` that hits allocated storage keeps its shape. -/
theorem IntByIndexAssign_keeps {d d' : Deque} {idx : Nat} {v : Int}
    (h : d.IntByIndexAssign idx v = some d') (hs : Storage d) :
    d'.left_ = d.left_ ∧ d'.right_ = d.right_ ∧ d'.blocks_ = d.blocks_ ∧ Storage d' := by
  unfold IntByIndexAssign at h
  split at h
  · simp at h
  · rename_i block hb
    split_ifs at h with ho
    simp only [Option.some.injEq] at h
    subst h
    refine ⟨rfl, rfl, rfl, ⟨by simpa using hs.len, ?_⟩⟩
    intro b hbm
    rcases List.mem_or_eq_of_mem_set hbm with hm | rfl
    · exact hs.blk b hm
    · have := hs.blk block (List.getElem?_mem hb)
      simpa using this


theorem Inv_of_fields {d e : Deque} (hi : Inv d) (h1 : e.left_ = d.left_) (h2 : e.right_ = d.right_)
    (h3 : e.blocks_ = d.blocks_) (hs : Storage e) : Inv e :=
  ⟨hs, by rw [h1, h2, h3]; exact hi.shape⟩

theorem Size_of_fields {d e : Deque} (h1 : e.left_ = d.left_) (h2 : e.right_ = d.right_)
    (h3 : e.blocks_ = d.blocks_) : e.Size = d.Size := by
  simp only [Size, EmptyValue, h1, h2, h3]

theorem real_index_of_fields {d e : Deque} (h1 : e.left_ = d.left_) (h3 : e.blocks_ = d.blocks_)
    (i : Nat) : e.real_index i = d.real_index i := by
  simp only [real_index, h1, h3]

theorem Assign_zero (d : Deque) :
    Assign d 0 = { left_ := 0, right_ := 0, blocks_ := 0, data_ := [] } := by
  simp [Assign]

theorem Assign_pos (d : Deque) {size : Nat} (h0 : size ≠ 0)
    (h : size + (block_size_ - 1) < size_t_card) :
    Assign d size = { left_ := 0, right_ := size - 1, blocks_ := (size + 511) / 512, data_ := List.replicate ((size + 511) / 512) (List.replicate block_size_ 0) } := by
  have hm : (size + block_size_ - 1) % size_t_card = size + 511 := by
    rw [Nat.mod_eq_of_lt (by simp only [block_size_eq, size_t_sub_eq] at *; omega)]
    simp only [block_size_eq, size_t_sub_eq]; omega
  simp only [Assign, h0, if_false, hm]
  rfl

theorem Inv_new : Inv Deque.new := by
  rw [Deque.new, Assign_zero]
  exact ⟨⟨rfl, by simp⟩, Or.inl ⟨rfl, rfl⟩⟩

/-- `Assign` with a size whose rounding does not wrap. -/
theorem Assign_spec (d : Deque) {size : Nat} (h : size + (block_size_ - 1) < size_t_card) :
    Inv (Assign d size) ∧ (Assign d size).Size = size ∧ (Assign d size).left_ = 0 ∧
      (Assign d size).blocks_ = (size + 511) / 512 ∧
      (size ≠ 0 → (Assign d size).right_ = size - 1) ∧
      ∀ i, i < size → (Assign d size).index i = some 0 := by
  by_cases h0 : size = 0
  · subst h0
    rw [Assign_zero]
    refine ⟨⟨⟨rfl, by simp⟩, Or.inl ⟨rfl, rfl⟩⟩, ?_, rfl, rfl, ?_, ?_⟩
    · simp [Size, EmptyValue]
    · intro h; exact absurd rfl h
    · intro i hi; omega
  · rw [Assign_pos d h0 h]
    refine ⟨⟨⟨by simp, ?_⟩, Or.inr ?_⟩, ?_, rfl, rfl, fun _ => rfl, ?_⟩
    · intro b hb
      simp only [List.mem_replicate] at hb
      rw [hb.2]; simp
    · simp only [block_size_eq, size_t_sub_eq]; omega
    · simp only [Size, EmptyValue, block_size_eq, size_t_sub_eq]
      split_ifs <;> omega
    · intro i hi
      have hri : real_index { left_ := 0, right_ := size - 1, blocks_ := (size + 511) / 512, data_ := List.replicate ((size + 511) / 512) (List.replicate block_size_ 0) } i = i := by
        simp only [real_index, block_size_eq, size_t_sub_eq]
        split_ifs <;> omega
      have hq : i / block_size_ < (size + 511) / 512 := by
        simp only [block_size_eq, size_t_sub_eq]; omega
      have ho : i % block_size_ < block_size_ := Nat.mod_lt _ (by decide)
      simp only [index, hri, IntByIndex, Convert, BlockByIndex]
      rw [List.getElem?_replicate_of_lt hq]
      simp only
      rw [List.getElem?_replicate_of_lt ho]

theorem fill_spec : ∀ (list : List Int) (d : Deque) (i : Nat), Storage d →
    i + list.length ≤ block_size_ * d.blocks_ →
    ∃ d', fill d i list = some d' ∧ d'.left_ = d.left_ ∧ d'.right_ = d.right_ ∧
      d'.blocks_ = d.blocks_ ∧ Storage d' ∧
      (∀ k, k < list.length → d'.IntByIndex (i + k) = list[k]?) ∧
      (∀ idx, idx < i → d'.IntByIndex idx = d.IntByIndex idx) := by
  intro list
  induction list with
  | nil =>
    intro d i hs _
    exact ⟨d, rfl, rfl, rfl, rfl, hs, by intro k hk; simp at hk, fun _ _ => rfl⟩
  | cons x it ih =>
    intro d i hs hle
    simp only [List.length_cons] at hle
    obtain ⟨d1, hd1, a1, a2, a3, a4, a5, a6⟩ := IntByIndexAssign_spec hs (show i < block_size_ * d.blocks_ by omega) x
    obtain ⟨d', hd', b1, b2, b3, b4, b5, b6⟩ := ih d1 (i + 1) a4 (by rw [a3]; omega)
    refine ⟨d', ?_, by rw [b1, a1], by rw [b2, a2], by rw [b3, a3], b4, ?_, ?_⟩
    · simp only [fill, hd1]; exact hd'
    · intro k hk
      cases k with
      | zero => rw [Nat.add_zero, b6 i (by omega), a5]; simp
      | succ k =>
        have := b5 k (by simp only [List.length_cons] at hk; omega)
        rw [show i + (k + 1) = i + 1 + k by omega, this]
        simp
    · intro idx hidx
      rw [b6 idx (by omega), a6 idx (by omega)]

/-- The initializer-list constructor, for a list whose length rounds without wrapping. -/
theorem ofList_spec (list : List Int) (h : list.length + (block_size_ - 1) < size_t_card) :
    ∃ d, ofList list = some d ∧ Inv d ∧ d.Size = list.length ∧ d.left_ = 0 ∧
      d.blocks_ = (list.length + 511) / 512 ∧
      ∀ i, i < list.length → d.index i = list[i]? := by
  obtain ⟨hi, hsz, hl, hb, -, -⟩ := Assign_spec members h
  have hle : 0 + list.length ≤ block_size_ * (Assign members list.length).blocks_ := by
    rw [hb]; simp only [block_size_eq, size_t_sub_eq]; omega
  obtain ⟨d, hd, b1, b2, b3, b4, b5, -⟩ := fill_spec list _ 0 hi.storage hle
  refine ⟨d, hd, Inv_of_fields hi b1 b2 b3 b4, ?_, by rw [b1, hl], by rw [b3, hb], ?_⟩
  · rw [Size_of_fields b1 b2 b3, hsz]
  · intro i hlt
    have hri : d.real_index i = i := by
      simp only [real_index, b1, b3, hl, hb, block_size_eq, size_t_sub_eq] at *
      split_ifs <;> omega
    have := b5 i hlt
    rw [Nat.zero_add] at this
    simp only [index, hri, this]

theorem copyLoop_spec (rhs : Deque) (hr : Inv rhs) : ∀ (count i : Nat) (d : Deque), Storage d →
    i + count ≤ rhs.Size → rhs.Size ≤ block_size_ * d.blocks_ →
    ∃ d', copyLoop rhs count i d = some d' ∧ d'.left_ = d.left_ ∧ d'.right_ = d.right_ ∧
      d'.blocks_ = d.blocks_ ∧ Storage d' ∧
      (∀ k, i ≤ k → k < i + count → d'.IntByIndex k = rhs.index k) ∧
      (∀ idx, idx < i → d'.IntByIndex idx = d.IntByIndex idx) := by
  intro count
  induction count with
  | zero =>
    intro i d hs _ _
    exact ⟨d, rfl, rfl, rfl, rfl, hs, by intro k h1 h2; omega, fun _ _ => rfl⟩
  | succ count ih =>
    intro i d hs hle hcap
    obtain ⟨x, hx⟩ := index_isSome hr (i := i) (by omega)
    obtain ⟨d1, hd1, a1, a2, a3, a4, a5, a6⟩ := IntByIndexAssign_spec hs (show i < block_size_ * d.blocks_ by omega) x
    obtain ⟨d', hd', b1, b2, b3, b4, b5, b6⟩ := ih (i + 1) d1 a4 (by omega) (by rw [a3]; exact hcap)
    refine ⟨d', ?_, by rw [b1, a1], by rw [b2, a2], by rw [b3, a3], b4, ?_, ?_⟩
    · simp only [copyLoop, hx, hd1]; exact hd'
    · intro k h1 h2
      by_cases hk : k = i
      · subst hk
        rw [b6 k (by omega), a5, hx]
      · exact b5 k (by omega) (by omega)
    · intro idx hidx
      rw [b6 idx (by omega), a6 idx (by omega)]

/-- The copy constructor, for a source whose size rounds without wrapping. -/
theorem copy_spec {rhs : Deque} (hr : Inv rhs) (h : rhs.Size + (block_size_ - 1) < size_t_card) :
    ∃ d, copy rhs = some d ∧ Inv d ∧ d.Size = rhs.Size ∧ d.left_ = 0 ∧
      d.blocks_ = (rhs.Size + 511) / 512 ∧
      ∀ i, i < rhs.Size → d.index i = rhs.index i := by
  obtain ⟨hi, hsz, hl, hb, -, -⟩ := Assign_spec members h
  have hcap : rhs.Size ≤ block_size_ * (Assign members rhs.Size).blocks_ := by
    rw [hb]; simp only [block_size_eq, size_t_sub_eq]; omega
  obtain ⟨d, hd, b1, b2, b3, b4, b5, -⟩ :=
    copyLoop_spec rhs hr rhs.Size 0 _ hi.storage (by omega) hcap
  refine ⟨d, hd, Inv_of_fields hi b1 b2 b3 b4, ?_, by rw [b1, hl], by rw [b3, hb], ?_⟩
  · rw [Size_of_fields b1 b2 b3, hsz]
  · intro i hlt
    have hri : d.real_index i = i := by
      simp only [real_index, b1, b3, hl, hb, block_size_eq, size_t_sub_eq] at *
      split_ifs <;> omega
    simp only [index, hri]
    exact b5 i (by omega) (by omega)


theorem PushBack_mono : ∀ (n : Nat) (d d' : Deque) (v : Int),
    PushBack n d v = some d' → PushBack (n + 1) d v = some d' := by
  intro n
  induction n with
  | zero => intro d d' v h; simp [PushBack] at h
  | succ n ih =>
    intro d d' v h
    rw [PushBack] at h ⊢
    by_cases h1 : d.blocks_ = 0
    · rw [if_pos h1] at h ⊢; exact h
    · rw [if_neg h1] at h ⊢
      by_cases h2 : d.left_ = d.EmptyValue
      · rw [if_pos h2] at h ⊢; exact h
      · rw [if_neg h2] at h ⊢
        simp only at h ⊢
        generalize (if d.right_ + 1 = block_size_ * d.blocks_ then 0 else d.right_ + 1) = k at h ⊢
        split_ifs at h ⊢ with h3
        · cases hre : d.Reallocate (d.blocks_ * 2) with
          | none => simp [hre] at h
          | some d1 =>
            simp only [hre] at h ⊢
            exact ih d1 d' v h
        · exact h

theorem PushFront_mono : ∀ (n : Nat) (d d' : Deque) (v : Int),
    PushFront n d v = some d' → PushFront (n + 1) d v = some d' := by
  intro n
  induction n with
  | zero => intro d d' v h; simp [PushFront] at h
  | succ n ih =>
    intro d d' v h
    rw [PushFront] at h ⊢
    by_cases h1 : d.blocks_ = 0
    · rw [if_pos h1] at h ⊢; exact h
    · rw [if_neg h1] at h ⊢
      by_cases h2 : d.left_ = d.EmptyValue
      · rw [if_pos h2] at h ⊢; exact h
      · rw [if_neg h2] at h ⊢
        simp only at h ⊢
        generalize (if d.left_ = 0 then block_size_ * d.blocks_ - 1 else d.left_ - 1) = k at h ⊢
        split_ifs at h ⊢ with h3
        · cases hre : d.Reallocate (d.blocks_ * 2) with
          | none => simp [hre] at h
          | some d1 =>
            simp only [hre] at h ⊢
            exact ih d1 d' v h
        · exact h

/-- Whatever call depth made `PushBack` return, the result is the one of `PushBack_spec`. -/
theorem PushBack_sound {d d' : Deque} (hi : Inv d) {n : Nat} {v : Int}
    (h : PushBack n d v = some d') :
    Inv d' ∧ d'.left_ < block_size_ * d'.blocks_ ∧
      (d'.blocks_ = d.blocks_ ∨ d'.blocks_ = max 1 (2 * d.blocks_)) ∧
      d'.Size = d.Size + 1 ∧ d'.index d.Size = some v ∧
      ∀ i, i < d.Size → d'.index i = d.index i := by
  obtain ⟨e, he, props⟩ := PushBack_spec hi v n
  have h2 := PushBack_mono _ _ _ _ (PushBack_mono _ _ _ _ h)
  rw [he] at h2
  cases h2
  exact props

/-- Whatever call depth made `PushFront` return, the result is the one of `PushFront_spec`. -/
theorem PushFront_sound {d d' : Deque} (hi : Inv d) {n : Nat} {v : Int}
    (h : PushFront n d v = some d') :
    Inv d' ∧ d'.left_ < block_size_ * d'.blocks_ ∧
      (d'.blocks_ = d.blocks_ ∨ d'.blocks_ = max 1 (2 * d.blocks_)) ∧
      d'.Size = d.Size + 1 ∧ d'.index 0 = some v ∧
      ∀ i, i < d.Size → d'.index (i + 1) = d.index i := by
  obtain ⟨e, he, props⟩ := PushFront_spec hi v n
  have h2 := PushFront_mono _ _ _ _ (PushFront_mono _ _ _ _ h)
  rw [he] at h2
  cases h2
  exact props

theorem Inv_members : Inv members := ⟨⟨rfl, by simp [members]⟩, Or.inl ⟨rfl, rfl⟩⟩

/-- Every reachable state satisfies the representation invariant. -/
theorem Reachable.inv {d : Deque} (h : Reachable d) : Inv d := by
  induction h with
  | new => exact Inv_new
  | ofSize size hs => exact (Assign_spec members hs).1
  | ofList list d hs hd =>
    obtain ⟨e, he, hi, -⟩ := ofList_spec list hs
    rw [he] at hd; cases hd; exact hi
  | copy rhs d _ hs hd ih =>
    obtain ⟨e, he, hi, -⟩ := copy_spec ih hs
    rw [he] at hd; cases hd; exact hi
  | move_target rhs _ ih => exact ⟨⟨ih.storage.len, ih.storage.blk⟩, ih.shape⟩
  | move_source rhs _ _ => exact Inv_members
  | swap_this d rhs _ _ _ ih2 => exact ⟨⟨ih2.storage.len, ih2.storage.blk⟩, ih2.shape⟩
  | swap_rhs d rhs _ _ ih1 _ => exact ⟨⟨ih1.storage.len, ih1.storage.blk⟩, ih1.shape⟩
  | pushBack depth d d' value _ hd ih => exact (PushBack_sound ih hd).1
  | popBack d _ ih => exact (PopBack_spec ih).1
  | pushFront depth d d' value _ hd ih => exact (PushFront_sound ih hd).1
  | popFront d _ ih => exact (PopFront_spec ih).1
  | indexAssign d d' ind value _ hd ih =>
    obtain ⟨h1, h2, h3, h4⟩ := IntByIndexAssign_keeps hd ih.storage
    exact Inv_of_fields ih h1 h2 h3 h4
  | clear d _ _ =>
    rw [Clear, Assign_zero]
    exact ⟨⟨rfl, by simp⟩, Or.inl ⟨rfl, rfl⟩⟩


theorem Mirrors_new : Mirrors Deque.new [] := by
  rw [Deque.new, Assign_zero]
  exact ⟨by simp [Size, EmptyValue], by intro i hi; simp [Size, EmptyValue] at hi⟩

theorem Mirrors_PushBack {d d' : Deque} {r : List Int} {v : Int} (hm : Mirrors d r)
    (hsz : d'.Size = d.Size + 1) (hv : d'.index d.Size = some v)
    (hk : ∀ i, i < d.Size → d'.index i = d.index i) : Mirrors d' (r ++ [v]) := by
  obtain ⟨h1, h2⟩ := hm
  refine ⟨by simp [hsz, h1], ?_⟩
  intro i hi
  by_cases hlt : i < d.Size
  · rw [hk i hlt, h2 i hlt, List.getElem?_append_left (by omega)]
  · have : i = d.Size := by omega
    subst this
    rw [hv, h1, List.getElem?_append_right (le_refl _)]
    simp

theorem Mirrors_PushFront {d d' : Deque} {r : List Int} {v : Int} (hm : Mirrors d r)
    (hsz : d'.Size = d.Size + 1) (hv : d'.index 0 = some v)
    (hk : ∀ i, i < d.Size → d'.index (i + 1) = d.index i) : Mirrors d' (v :: r) := by
  obtain ⟨h1, h2⟩ := hm
  refine ⟨by simp [hsz, h1], ?_⟩
  intro i hi
  cases i with
  | zero => rw [hv]; simp
  | succ i => rw [hk i (by omega), h2 i (by omega)]; simp

theorem Mirrors_PopBack {d d' : Deque} {r : List Int} (hm : Mirrors d r)
    (hsz : d'.Size = d.Size - 1)
    (hk : ∀ i, i < d.Size - 1 → d'.index i = d.index i) : Mirrors d' r.dropLast := by
  obtain ⟨h1, h2⟩ := hm
  refine ⟨by simp [hsz, h1], ?_⟩
  intro i hi
  rw [hk i (by omega), h2 i (by omega), List.getElem?_dropLast]
  rw [if_pos (by omega)]

theorem Mirrors_PopFront {d d' : Deque} {r : List Int} (hm : Mirrors d r)
    (hsz : d'.Size = d.Size - 1)
    (hk : ∀ i, i < d.Size - 1 → d'.index i = d.index (i + 1)) : Mirrors d' r.tail := by
  obtain ⟨h1, h2⟩ := hm
  refine ⟨by simp [hsz, h1], ?_⟩
  intro i hi
  rw [hk i (by omega), h2 (i + 1) (by omega)]
  cases r with
  | nil => simp
  | cons x r => simp

/-- One guarded call keeps the invariant and the agreement with the reference list. -/
theorem step_mirrors {d : Deque} {r : List Int} (hi : Inv d) (hm : Mirrors d r) (op : Op)
    (hg : op.guard d = true) (depth : Nat) :
    ∃ d', op.apply (depth + 2) d = some d' ∧ Inv d' ∧ Mirrors d' (op.onReference r) ∧
      d'.Size + (if op.isPop then 1 else 0) = d.Size + (if op.isPush then 1 else 0) := by
  cases op with
  | pushBack v =>
    obtain ⟨d', hd', h1, -, -, h4, h5, h6⟩ := PushBack_spec hi v depth
    exact ⟨d', hd', h1, Mirrors_PushBack hm h4 h5 h6, by simp [Op.isPop, Op.isPush, h4]⟩
  | pushFront v =>
    obtain ⟨d', hd', h1, -, -, h4, h5, h6⟩ := PushFront_spec hi v depth
    exact ⟨d', hd', h1, Mirrors_PushFront hm h4 h5 h6, by simp [Op.isPop, Op.isPush, h4]⟩
  | popBack =>
    obtain ⟨h1, -, -, h4, h5, -⟩ := PopBack_spec hi
    have hpos : 0 < d.Size := by simpa [Op.guard, Op.isPop] using hg
    refine ⟨d.PopBack, rfl, h1, Mirrors_PopBack hm h4 h5, ?_⟩
    simp only [Op.isPop, Op.isPush, if_true, h4]
    simp; omega
  | popFront =>
    obtain ⟨h1, -, -, h4, h5, -⟩ := PopFront_spec hi
    have hpos : 0 < d.Size := by simpa [Op.guard, Op.isPop] using hg
    refine ⟨d.PopFront, rfl, h1, Mirrors_PopFront hm h4 h5, ?_⟩
    simp only [Op.isPop, Op.isPush, if_true, h4]
    simp; omega

/-- Guarded calls from a state that agrees with `r`: every prefix runs to a state
that agrees with the reference list of that prefix. -/
theorem run_mirrors (depth : Nat) : ∀ (ops : List Op) (d : Deque) (r : List Int), Inv d →
    Mirrors d r → popsGuarded (depth + 2) ops d = true →
    ∀ k, ∃ d', run (depth + 2) (ops.take k) d = some d' ∧ Inv d' ∧
      Mirrors d' (reference (ops.take k) r) ∧
      d'.Size + (ops.take k).countP Op.isPop = d.Size + (ops.take k).countP Op.isPush := by
  intro ops
  induction ops with
  | nil =>
    intro d r hi hm _ k
    exact ⟨d, by simp [run], hi, by simpa [reference] using hm, by simp⟩
  | cons op rest ih =>
    intro d r hi hm hg k
    cases k with
    | zero => exact ⟨d, by simp [run], hi, by simpa [reference] using hm, by simp⟩
    | succ k =>
      simp only [popsGuarded, Bool.and_eq_true] at hg
      obtain ⟨d1, hd1, hi1, hm1, hc1⟩ := step_mirrors hi hm op hg.1 depth
      have hg2 := hg.2
      rw [hd1] at hg2
      obtain ⟨d', hd', hi', hm', hc'⟩ := ih d1 (op.onReference r) hi1 hm1 hg2 k
      refine ⟨d', ?_, hi', ?_, ?_⟩
      · simp only [List.take_succ_cons, run, hd1]; exact hd'
      · simpa only [List.take_succ_cons, reference] using hm'
      · simp only [List.take_succ_cons, List.countP_cons]
        split_ifs at hc1 ⊢ <;> simp_all <;> omega

theorem pushBackAll_spec (depth : Nat) : ∀ (vs : List Int) (d : Deque) (r : List Int), Inv d →
    Mirrors d r →
    ∃ d', pushBackAll (depth + 2) vs d = some d' ∧ Inv d' ∧ Mirrors d' (r ++ vs) ∧
      d.blocks_ ≤ d'.blocks_ := by
  intro vs
  induction vs with
  | nil =>
    intro d r hi hm
    exact ⟨d, rfl, hi, by simpa using hm, le_refl _⟩
  | cons v rest ih =>
    intro d r hi hm
    obtain ⟨d1, hd1, h1, -, h3, h4, h5, h6⟩ := PushBack_spec hi v depth
    obtain ⟨d', hd', hi', hm', hb'⟩ := ih d1 (r ++ [v]) h1 (Mirrors_PushBack hm h4 h5 h6)
    refine ⟨d', ?_, hi', by simpa using hm', ?_⟩
    · simp only [pushBackAll, hd1]; exact hd'
    · rcases h3 with h3 | h3 <;> omega

/-! ## The claims -/

theorem Convert_inj {a b : Nat} (h : Convert a = Convert b) : a = b := by
  simp only [Convert, BlockByIndex, Prod.mk.injEq, block_size_eq, size_t_sub_eq] at h
  omega

/-- Claim C1: for every sequence of `PushBack`, `PushFront`, `PopBack` and
`PopFront` calls on a default-constructed deque in which a pop is issued only
when `Size() > 0`, after every step (every prefix `ops.take k`) the deque has
returned, `Size()` is the length of the reference list, pushes minus pops, and
`operator[](i)` is the `i`-th element of the reference list for every
`i < Size()`. -/
theorem mirrors_reference_list (depth : Nat) (ops : List Op)
    (h : popsGuarded (depth + 2) ops Deque.new = true) (k : Nat) :
    ∃ d, run (depth + 2) (ops.take k) Deque.new = some d ∧
      d.Size = (reference (ops.take k) []).length ∧
      d.Size + (ops.take k).countP Op.isPop = (ops.take k).countP Op.isPush ∧
      ∀ i, i < d.Size → d.index i = (reference (ops.take k) [])[i]? := by
  obtain ⟨d, hd, -, hm, hc⟩ := run_mirrors depth ops Deque.new [] Inv_new Mirrors_new h k
  refine ⟨d, hd, hm.1, ?_, hm.2⟩
  have h0 : Deque.new.Size = 0 := Mirrors_new.1
  omega

set_option maxRecDepth 100000 in
/-- Claim C1 on the calls `PushBack(1)`, `PushBack(2)`, `PushFront(0)`, `PopFront()`. -/
theorem mirrors_reference_list_witness :
    popsGuarded 2 [Op.pushBack 1, Op.pushBack 2, Op.pushFront 0, Op.popFront] Deque.new = true ∧
    ∃ d, run 2 ([Op.pushBack 1, Op.pushBack 2, Op.pushFront 0, Op.popFront].take 4) Deque.new
        = some d ∧
      d.Size = (reference ([Op.pushBack 1, Op.pushBack 2, Op.pushFront 0, Op.popFront].take 4)
        []).length ∧
      d.Size + ([Op.pushBack 1, Op.pushBack 2, Op.pushFront 0, Op.popFront].take 4).countP Op.isPop
        = ([Op.pushBack 1, Op.pushBack 2, Op.pushFront 0, Op.popFront].take 4).countP Op.isPush ∧
      ∀ i, i < d.Size → d.index i =
        (reference ([Op.pushBack 1, Op.pushBack 2, Op.pushFront 0, Op.popFront].take 4) [])[i]? :=
  ⟨by decide, mirrors_reference_list 0 _ (by decide) 4⟩

/-- Away from the sizes that wrap the rounding of `Assign`, on the states of
`Reachable`: in every reachable state, `PushBack(v)` returns; afterwards `Size()`
is the old `Size()` plus one, `operator[](old Size())` is `v`, and every position
`i < old Size()` holds a value and reads as that same value; so a list of values
pushed onto an empty deque reads back in the same order. -/
theorem PushBack_appends (d : Deque) (hd : Reachable d) (v : Int) (depth : Nat) :
    (∃ d', d.PushBack (depth + 2) v = some d' ∧ d'.Size = d.Size + 1 ∧
      d'.index d.Size = some v ∧
      ∀ i, i < d.Size → ∃ x, d.index i = some x ∧ d'.index i = some x) ∧
    ∀ vs : List Int, ∃ e, pushBackAll (depth + 2) vs Deque.new = some e ∧
      e.Size = vs.length ∧ ∀ i, i < vs.length → e.index i = vs[i]? := by
  constructor
  · obtain ⟨d', hd', -, -, -, h4, h5, h6⟩ := PushBack_spec hd.inv v depth
    refine ⟨d', hd', h4, h5, ?_⟩
    intro i hi
    obtain ⟨x, hx⟩ := index_isSome hd.inv hi
    exact ⟨x, hx, by rw [h6 i hi, hx]⟩
  · intro vs
    obtain ⟨e, he, -, hm, -⟩ := pushBackAll_spec depth vs Deque.new [] Inv_new Mirrors_new
    simp only [List.nil_append] at hm
    exact ⟨e, he, hm.1, fun i hi => hm.2 i (by rw [hm.1]; exact hi)⟩

/-- Away from the sizes that wrap the rounding of `Assign`, on the states of
`Reachable`: in every reachable state, `PushFront(v)` returns; afterwards `Size()`
is the old `Size()` plus one, `operator[](0)` is `v`, and for every
`i < old Size()` position `i + 1` reads as the value position `i` held before. -/
theorem PushFront_prepends (d : Deque) (hd : Reachable d) (v : Int) (depth : Nat) :
    ∃ d', d.PushFront (depth + 2) v = some d' ∧ d'.Size = d.Size + 1 ∧
      d'.index 0 = some v ∧
      ∀ i, i < d.Size → ∃ x, d.index i = some x ∧ d'.index (i + 1) = some x := by
  obtain ⟨d', hd', -, -, -, h4, h5, h6⟩ := PushFront_spec hd.inv v depth
  refine ⟨d', hd', h4, h5, ?_⟩
  intro i hi
  obtain ⟨x, hx⟩ := index_isSome hd.inv hi
  exact ⟨x, hx, by rw [h6 i hi, hx]⟩

/-- Away from the sizes that wrap the rounding of `Assign`, on the states of
`Reachable`: in every reachable state with `Size() >= 1`, after `PopFront()` the
size is the old size minus one and every position `i` below the new size reads
as the value position `i + 1` held before; when the old size was one the deque
is empty with `left_` and `right_` both at the sentinel `block_size_ * blocks_`. -/
theorem PopFront_drops_first (d : Deque) (hd : Reachable d) (h : 1 ≤ d.Size) :
    d.PopFront.Size = d.Size - 1 ∧
    (∀ i, i < d.PopFront.Size → ∃ x, d.index (i + 1) = some x ∧ d.PopFront.index i = some x) ∧
    (d.Size = 1 → d.PopFront.Size = 0 ∧ d.PopFront.left_ = block_size_ * d.PopFront.blocks_ ∧
      d.PopFront.right_ = block_size_ * d.PopFront.blocks_ ∧
      d.PopFront.EmptyValue = block_size_ * d.PopFront.blocks_) := by
  obtain ⟨-, h2, -, h4, h5, h6⟩ := PopFront_spec hd.inv
  refine ⟨h4, ?_, ?_⟩
  · intro i hi
    obtain ⟨x, hx⟩ := index_isSome hd.inv (show i + 1 < d.Size by omega)
    exact ⟨x, hx, by rw [h5 i (by omega), hx]⟩
  · intro h1
    obtain ⟨a, b⟩ := h6 (by omega)
    exact ⟨by omega, by rw [h2]; exact a, by rw [h2]; exact b, rfl⟩

/-- Away from the sizes that wrap the rounding of `Assign`, on the states of
`Reachable`: in every reachable state with `Size() >= 1`, after `PopBack()` the
size is the old size minus one and every position below the new size reads as
the same value as before; when the old size was one the deque is empty with
`left_` and `right_` both at the sentinel `block_size_ * blocks_`. -/
theorem PopBack_drops_last (d : Deque) (hd : Reachable d) (h : 1 ≤ d.Size) :
    d.PopBack.Size = d.Size - 1 ∧
    (∀ i, i < d.PopBack.Size → ∃ x, d.index i = some x ∧ d.PopBack.index i = some x) ∧
    (d.Size = 1 → d.PopBack.Size = 0 ∧ d.PopBack.left_ = block_size_ * d.PopBack.blocks_ ∧
      d.PopBack.right_ = block_size_ * d.PopBack.blocks_ ∧
      d.PopBack.EmptyValue = block_size_ * d.PopBack.blocks_) := by
  obtain ⟨-, h2, -, h4, h5, h6⟩ := PopBack_spec hd.inv
  refine ⟨h4, ?_, ?_⟩
  · intro i hi
    obtain ⟨x, hx⟩ := index_isSome hd.inv (show i < d.Size by omega)
    exact ⟨x, hx, by rw [h5 i (by omega), hx]⟩
  · intro h1
    obtain ⟨a, b⟩ := h6 (by omega)
    exact ⟨by omega, by rw [h2]; exact a, by rw [h2]; exact b, rfl⟩

/-- Away from the sizes that wrap the rounding of `Assign`, on the states of
`Reachable`: in every reachable state, a write of `v` through `operator[](i)` with
`i < Size()` hits allocated storage, leaves `Size()`, `left_`, `right_` and
`blocks_` unchanged, makes position `i` read as `v` and leaves every other
position `j < Size()` reading as before; two different positions below `Size()`
never translate to the same block and offset. -/
theorem indexAssign_frame (d : Deque) (hd : Reachable d) (i : Nat) (h : i < d.Size) (v : Int) :
    (∃ d', d.indexAssign i v = some d' ∧ d'.Size = d.Size ∧ d'.left_ = d.left_ ∧
      d'.right_ = d.right_ ∧ d'.blocks_ = d.blocks_ ∧ d'.index i = some v ∧
      ∀ j, j < d.Size → j ≠ i → ∃ x, d.index j = some x ∧ d'.index j = some x) ∧
    ∀ j k, j < d.Size → k < d.Size → j ≠ k →
      Convert (d.real_index j) ≠ Convert (d.real_index k) := by
  constructor
  · obtain ⟨d', hd', h1, h2, h3, -, h5, h6, h7⟩ := indexAssign_spec hd.inv h v
    refine ⟨d', hd', h5, h1, h2, h3, h6, ?_⟩
    intro j hj hne
    obtain ⟨x, hx⟩ := index_isSome hd.inv hj
    exact ⟨x, hx, by rw [h7 j hj hne, hx]⟩
  · intro j k hj hk hne hc
    exact real_index_inj hd.inv hj hk hne (Convert_inj hc)

/-- Claim C7: for every `k`, `PushBack` of `block_size_ * k + 1` values onto a
default-constructed deque returns; the block count increases at some push of
the sequence and ends above `k`; afterwards `Size()` is `block_size_ * k + 1`
(with `block_size_ = 512`) and `operator[](i)` is the `i`-th pushed value. -/
theorem growth_keeps_order (k : Nat) (vs : List Int) (hlen : vs.length = block_size_ * k + 1)
    (depth : Nat) :
    block_size_ = 512 ∧
    ∃ d, pushBackAll (depth + 2) vs Deque.new = some d ∧
      (∃ j a b, j < vs.length ∧ pushBackAll (depth + 2) (vs.take j) Deque.new = some a ∧
        pushBackAll (depth + 2) (vs.take (j + 1)) Deque.new = some b ∧ a.blocks_ < b.blocks_) ∧
      k < d.blocks_ ∧ d.Size = block_size_ * k + 1 ∧
      ∀ i, i < d.Size → d.index i = vs[i]? := by
  refine ⟨rfl, ?_⟩
  obtain ⟨d, hd, hi, hm, -⟩ := pushBackAll_spec depth vs Deque.new [] Inv_new Mirrors_new
  simp only [List.nil_append] at hm
  refine ⟨d, hd, ?_, ?_, by rw [hm.1, hlen], hm.2⟩
  · cases vs with
    | nil => simp at hlen
    | cons v rest =>
      obtain ⟨b, hb, -, h2, -⟩ := PushBack_spec Inv_new v depth
      refine ⟨0, Deque.new, b, by simp, rfl, ?_, ?_⟩
      · simp only [List.take_succ_cons, List.take_zero, pushBackAll, hb]
      · have h0 : Deque.new.blocks_ = 0 := by rw [Deque.new, Assign_zero]
        rw [h0]
        simp only [block_size_eq, size_t_sub_eq] at h2
        omega
  · have hle := Size_le hi
    rw [hm.1, hlen] at hle
    simp only [block_size_eq, size_t_sub_eq] at hle
    omega

/-- Claim C7 at `k = 1` with 513 pushes of the value 5. -/
theorem growth_keeps_order_witness :
    (List.replicate 513 (5 : Int)).length = block_size_ * 1 + 1 ∧
    (block_size_ = 512 ∧
    ∃ d, pushBackAll (0 + 2) (List.replicate 513 (5 : Int)) Deque.new = some d ∧
      (∃ j a b, j < (List.replicate 513 (5 : Int)).length ∧
        pushBackAll (0 + 2) ((List.replicate 513 (5 : Int)).take j) Deque.new = some a ∧
        pushBackAll (0 + 2) ((List.replicate 513 (5 : Int)).take (j + 1)) Deque.new = some b ∧
        a.blocks_ < b.blocks_) ∧
      1 < d.blocks_ ∧ d.Size = block_size_ * 1 + 1 ∧
      ∀ i, i < d.Size → d.index i = (List.replicate 513 (5 : Int))[i]?) :=
  ⟨by simp only [List.length_replicate, block_size_],
    growth_keeps_order 1 (List.replicate 513 5) (by simp only [List.length_replicate, block_size_]) 0⟩

/-- Claim C8: in every reachable state (moved-from and cleared ones included),
`Size() == 0` holds exactly when `left_` and `right_` both equal the sentinel
`EmptyValue() = block_size_ * blocks_`; in every other state `Size() >= 1`. -/
theorem Size_zero_iff_sentinel (d : Deque) (hd : Reachable d) :
    d.EmptyValue = block_size_ * d.blocks_ ∧
    (d.Size = 0 ↔ d.left_ = d.EmptyValue ∧ d.right_ = d.EmptyValue) ∧
    (¬ (d.left_ = d.EmptyValue ∧ d.right_ = d.EmptyValue) → 1 ≤ d.Size) := by
  have hiff := Size_eq_zero_iff hd.inv
  refine ⟨rfl, hiff, ?_⟩
  intro hne
  have : d.Size ≠ 0 := fun h0 => hne (hiff.mp h0)
  omega

/-- Claim C8 at the moved-from `Deque(3)`. -/
theorem Size_zero_iff_sentinel_witness :
    Reachable (Deque.move (Deque.ofSize 3)).2 ∧
    ((Deque.move (Deque.ofSize 3)).2.EmptyValue =
        block_size_ * (Deque.move (Deque.ofSize 3)).2.blocks_ ∧
    ((Deque.move (Deque.ofSize 3)).2.Size = 0 ↔
      (Deque.move (Deque.ofSize 3)).2.left_ = (Deque.move (Deque.ofSize 3)).2.EmptyValue ∧
      (Deque.move (Deque.ofSize 3)).2.right_ = (Deque.move (Deque.ofSize 3)).2.EmptyValue) ∧
    (¬ ((Deque.move (Deque.ofSize 3)).2.left_ = (Deque.move (Deque.ofSize 3)).2.EmptyValue ∧
      (Deque.move (Deque.ofSize 3)).2.right_ = (Deque.move (Deque.ofSize 3)).2.EmptyValue) →
      1 ≤ (Deque.move (Deque.ofSize 3)).2.Size)) :=
  ⟨Reachable.move_source _ (Reachable.ofSize 3 (by decide)),
    Size_zero_iff_sentinel _ (Reachable.move_source _ (Reachable.ofSize 3 (by decide)))⟩

/-- Claim C9: for every list of `int`s (of a length that an initializer list can
have: rounding it to whole blocks fits `size_t`), the initializer-list
constructor returns a deque with `Size()` the length of the list and
`operator[](i)` its `i`-th element; for the empty list it is the empty deque
with zero blocks. -/
theorem ofList_reads_back (list : List Int)
    (h : list.length + (block_size_ - 1) < size_t_card) :
    ∃ d, Deque.ofList list = some d ∧ d.Size = list.length ∧
      (∀ i, i < list.length → d.index i = list[i]?) ∧
      (list = [] → d.blocks_ = 0 ∧ d.data_ = [] ∧ d.Size = 0 ∧ d = Deque.new) := by
  obtain ⟨d, hd, -, h2, -, -, h5⟩ := ofList_spec list h
  refine ⟨d, hd, h2, h5, ?_⟩
  intro hnil
  subst hnil
  have : d = Deque.new := by
    simp only [Deque.ofList, fill, List.length_nil, Option.some.injEq] at hd
    rw [← hd]; rfl
  subst this
  rw [Deque.new, Assign_zero]
  exact ⟨rfl, rfl, by simp [Size, EmptyValue], rfl⟩

/-- Claim C9 at the literal `{1, 2, 3, 4, 5}`. -/
theorem ofList_reads_back_witness :
    [(1 : Int), 2, 3, 4, 5].length + (block_size_ - 1) < size_t_card ∧
    ∃ d, Deque.ofList [1, 2, 3, 4, 5] = some d ∧ d.Size = [(1 : Int), 2, 3, 4, 5].length ∧
      (∀ i, i < [(1 : Int), 2, 3, 4, 5].length → d.index i = [(1 : Int), 2, 3, 4, 5][i]?) ∧
      ([(1 : Int), 2, 3, 4, 5] = [] → d.blocks_ = 0 ∧ d.data_ = [] ∧ d.Size = 0 ∧ d = Deque.new) :=
  ⟨by decide, ofList_reads_back [1, 2, 3, 4, 5] (by decide)⟩

/-- The sized constructor for a size whose rounding to whole blocks fits `size_t`:
`Size()` is `size`, every position reads `0`, there are `ceil(size / 512)` blocks
(the least count whose slots cover `size`), `left_` is `0` and `right_` is
`size - 1`; for `size = 0` there are no blocks and both ends are the sentinel. -/
theorem ofSize_spec (size : Nat) (h : size + (block_size_ - 1) < size_t_card) :
    (Deque.ofSize size).Size = size ∧
    (∀ i, i < size → (Deque.ofSize size).index i = some 0) ∧
    (Deque.ofSize size).blocks_ = (size + 511) / 512 ∧
    size ≤ block_size_ * (Deque.ofSize size).blocks_ ∧
    (∀ b, size ≤ block_size_ * b → (Deque.ofSize size).blocks_ ≤ b) ∧
    (Deque.ofSize size).left_ = 0 ∧
    (0 < size → (Deque.ofSize size).right_ = size - 1) ∧
    (size = 0 → (Deque.ofSize size).blocks_ = 0 ∧
      (Deque.ofSize size).left_ = (Deque.ofSize size).EmptyValue ∧
      (Deque.ofSize size).right_ = (Deque.ofSize size).EmptyValue) := by
  obtain ⟨-, h2, h3, h4, h5, h6⟩ := Assign_spec members h
  refine ⟨h2, h6, h4, ?_, ?_, h3, fun hp => h5 (by omega), ?_⟩
  · rw [Deque.ofSize, h4]; simp only [block_size_eq, size_t_sub_eq]; omega
  · intro b hb
    rw [Deque.ofSize, h4]; simp only [block_size_eq, size_t_sub_eq] at hb; omega
  · intro h0
    subst h0
    rw [Deque.ofSize, Assign_zero]
    exact ⟨rfl, rfl, rfl⟩

/-- Claim C10 at `Deque(SIZE_MAX)`: the rounding `size + block_size_ - 1` wraps, the
constructor returns with zero blocks where `ceil(size / 512)` is `2 ^ 55`, while
`Size()` still answers `SIZE_MAX`, and `operator[](0)` is outside the storage. -/
theorem ofSize_SIZE_MAX :
    2 ^ 64 - 1 < size_t_card ∧
    (Deque.ofSize (2 ^ 64 - 1)).blocks_ = 0 ∧
    (2 ^ 64 - 1 + 511) / 512 = 2 ^ 55 ∧
    (Deque.ofSize (2 ^ 64 - 1)).data_ = [] ∧
    (Deque.ofSize (2 ^ 64 - 1)).left_ = 0 ∧
    (Deque.ofSize (2 ^ 64 - 1)).right_ = 2 ^ 64 - 2 ∧
    (Deque.ofSize (2 ^ 64 - 1)).Size = 2 ^ 64 - 1 ∧
    (Deque.ofSize (2 ^ 64 - 1)).index 0 = none := by
  have hb : ((2 ^ 64 - 1 + block_size_ - 1) % size_t_card) / block_size_ = 0 := by
    norm_num [block_size_, size_t_card]
  have h : Deque.ofSize (2 ^ 64 - 1) =
      { left_ := 0, right_ := 2 ^ 64 - 2, blocks_ := 0, data_ := [] } := by
    simp only [Deque.ofSize, Assign, hb]
    norm_num
  rw [h]
  refine ⟨by norm_num [size_t_card], rfl, by norm_num, rfl, rfl, rfl, ?_, ?_⟩
  · simp [Size, EmptyValue]
  · simp [index, IntByIndex]

/-! ## Growth, call counts and the remaining claims -/

theorem PushBackCalls_of_not_grows {d : Deque} (h : ¬ PushBackGrows d) (v : Int) (depth : Nat) :
    PushBackCalls (depth + 1) d v = (PushBack (depth + 1) d v).map (fun e => (e, 0)) := by
  rw [PushBackCalls, PushBack]
  by_cases h1 : d.blocks_ = 0
  · rw [if_pos h1, if_pos h1]
  · rw [if_neg h1, if_neg h1]
    by_cases h2 : d.left_ = d.EmptyValue
    · rw [if_pos h2, if_pos h2]
    · rw [if_neg h2, if_neg h2]
      simp only
      have h3 : ¬ ((if d.right_ + 1 = block_size_ * d.blocks_ then 0 else d.right_ + 1) ≤ d.left_ ∧
          BlockByIndex d.left_ =
            BlockByIndex (if d.right_ + 1 = block_size_ * d.blocks_ then 0 else d.right_ + 1)) :=
        fun hc => h ⟨h1, h2, hc⟩
      rw [if_pos h3, if_pos h3]

theorem PushBackCalls_of_grows {d d1 : Deque} (h : PushBackGrows d)
    (hre : d.Reallocate (d.blocks_ * 2) = some d1) (v : Int) (depth : Nat) :
    PushBackCalls (depth + 1) d v = (PushBackCalls depth d1 v).map (fun p => (p.1, p.2 + 1)) ∧
    PushBack (depth + 1) d v = PushBack depth d1 v := by
  obtain ⟨h1, h2, h3⟩ := h
  rw [PushBackCalls, PushBack]
  rw [if_neg h1, if_neg h1, if_neg h2, if_neg h2]
  simp only
  rw [if_neg (not_not.mpr h3), if_neg (not_not.mpr h3), hre]
  refine ⟨?_, rfl⟩
  simp only
  cases hc : PushBackCalls depth d1 v with
  | none => rfl
  | some p => obtain ⟨e, c⟩ := p; rfl

theorem PushFrontCalls_of_not_grows {d : Deque} (h : ¬ PushFrontGrows d) (v : Int) (depth : Nat) :
    PushFrontCalls (depth + 1) d v = (PushFront (depth + 1) d v).map (fun e => (e, 0)) := by
  rw [PushFrontCalls, PushFront]
  by_cases h1 : d.blocks_ = 0
  · rw [if_pos h1, if_pos h1]
  · rw [if_neg h1, if_neg h1]
    by_cases h2 : d.left_ = d.EmptyValue
    · rw [if_pos h2, if_pos h2]
    · rw [if_neg h2, if_neg h2]
      simp only
      have h3 : ¬ (d.right_ ≤ (if d.left_ = 0 then block_size_ * d.blocks_ - 1 else d.left_ - 1) ∧
          BlockByIndex (if d.left_ = 0 then block_size_ * d.blocks_ - 1 else d.left_ - 1) =
            BlockByIndex d.right_) :=
        fun hc => h ⟨h1, h2, hc⟩
      rw [if_pos h3, if_pos h3]

theorem PushFrontCalls_of_grows {d d1 : Deque} (h : PushFrontGrows d)
    (hre : d.Reallocate (d.blocks_ * 2) = some d1) (v : Int) (depth : Nat) :
    PushFrontCalls (depth + 1) d v = (PushFrontCalls depth d1 v).map (fun p => (p.1, p.2 + 1)) ∧
    PushFront (depth + 1) d v = PushFront depth d1 v := by
  obtain ⟨h1, h2, h3⟩ := h
  rw [PushFrontCalls, PushFront]
  rw [if_neg h1, if_neg h1, if_neg h2, if_neg h2]
  simp only
  rw [if_neg (not_not.mpr h3), if_neg (not_not.mpr h3), hre]
  refine ⟨?_, rfl⟩
  simp only
  cases hc : PushFrontCalls depth d1 v with
  | none => rfl
  | some p => obtain ⟨e, c⟩ := p; rfl

/-- The counting variant returns the deque that `PushBack` returns. -/
theorem PushBackCalls_fst : ∀ (depth : Nat) (d : Deque) (v : Int),
    (PushBackCalls depth d v).map Prod.fst = PushBack depth d v := by
  intro depth
  induction depth with
  | zero => intro d v; rfl
  | succ depth ih =>
    intro d v
    by_cases hg : PushBackGrows d
    · cases hre : d.Reallocate (d.blocks_ * 2) with
      | none =>
        obtain ⟨h1, h2, h3⟩ := hg
        rw [PushBackCalls, PushBack]
        rw [if_neg h1, if_neg h1, if_neg h2, if_neg h2]
        simp only
        rw [if_neg (not_not.mpr h3), if_neg (not_not.mpr h3), hre]
        rfl
      | some d1 =>
        obtain ⟨a, b⟩ := PushBackCalls_of_grows hg hre v depth
        rw [a, b, ← ih d1 v]
        cases PushBackCalls depth d1 v <;> rfl
    · rw [PushBackCalls_of_not_grows hg]
      cases PushBack (depth + 1) d v <;> rfl

/-- The counting variant returns the deque that `PushFront` returns. -/
theorem PushFrontCalls_fst : ∀ (depth : Nat) (d : Deque) (v : Int),
    (PushFrontCalls depth d v).map Prod.fst = PushFront depth d v := by
  intro depth
  induction depth with
  | zero => intro d v; rfl
  | succ depth ih =>
    intro d v
    by_cases hg : PushFrontGrows d
    · cases hre : d.Reallocate (d.blocks_ * 2) with
      | none =>
        obtain ⟨h1, h2, h3⟩ := hg
        rw [PushFrontCalls, PushFront]
        rw [if_neg h1, if_neg h1, if_neg h2, if_neg h2]
        simp only
        rw [if_neg (not_not.mpr h3), if_neg (not_not.mpr h3), hre]
        rfl
      | some d1 =>
        obtain ⟨a, b⟩ := PushFrontCalls_of_grows hg hre v depth
        rw [a, b, ← ih d1 v]
        cases PushFrontCalls depth d1 v <;> rfl
    · rw [PushFrontCalls_of_not_grows hg]
      cases PushFront (depth + 1) d v <;> rfl

/-- Under the invariant `PushBack` grows exactly when every slot is occupied
except those before `left_` inside the block of `left_`. -/
theorem PushBackGrows_iff {d : Deque} (hi : Inv d) :
    PushBackGrows d ↔
      0 < d.Size ∧ d.Size + d.left_ % block_size_ = block_size_ * d.blocks_ := by
  have hsh := hi.shape
  simp only [PushBackGrows, Size, EmptyValue, BlockByIndex, block_size_eq, size_t_sub_eq, ne_eq] at *
  constructor
  · intro h
    split_ifs at h ⊢ <;> omega
  · intro h
    split_ifs at h ⊢ <;> omega

/-- Under the invariant `PushFront` grows exactly when every slot is occupied
except those after `right_` inside the block of `right_`. -/
theorem PushFrontGrows_iff {d : Deque} (hi : Inv d) :
    PushFrontGrows d ↔
      0 < d.Size ∧
        d.Size + (block_size_ - 1 - d.right_ % block_size_) = block_size_ * d.blocks_ := by
  have hsh := hi.shape
  simp only [PushFrontGrows, Size, EmptyValue, BlockByIndex, block_size_eq, size_t_sub_eq, ne_eq] at *
  constructor
  · intro h
    split_ifs at h ⊢ <;> omega
  · intro h
    split_ifs at h ⊢ <;> omega

theorem grows_WalkAll {d : Deque} (hi : Inv d) (hg : PushBackGrows d ∨ PushFrontGrows d) :
    d.left_ < block_size_ * d.blocks_ ∧ d.right_ < block_size_ * d.blocks_ ∧ WalkAll d := by
  have hne : d.left_ ≠ d.EmptyValue := by
    rcases hg with h | h <;> exact h.2.1
  rcases hi.shape with he | ⟨hl, hr, hwrap⟩
  · exact absurd he.1 hne
  · refine ⟨hl, hr, ?_⟩
    rcases hg with h | h
    · exact PushBack_grow_WalkAll hl hwrap h.2.2
    · exact PushFront_grow_WalkAll hr hwrap h.2.2

/-- `Reallocate(blocks_ * 2)` in a state where a push grows. -/
theorem Reallocate_of_grows {d : Deque} (hi : Inv d) (hg : PushBackGrows d ∨ PushFrontGrows d) :
    ∃ d1, d.Reallocate (d.blocks_ * 2) = some d1 ∧ Inv d1 ∧ d1.blocks_ = 2 * d.blocks_ ∧
      d1.left_ = d.left_ % block_size_ ∧ d1.right_ = d1.left_ + d.Size - 1 ∧
      d1.left_ ≤ d1.right_ ∧ d1.right_ < block_size_ * d1.blocks_ ∧
      0 < d.Size ∧ d1.Size = d.Size ∧ (∀ i, i < d.Size → d1.index i = d.index i) ∧
      ¬ PushBackGrows d1 ∧ ¬ PushFrontGrows d1 := by
  obtain ⟨hl, hr, hw⟩ := grows_WalkAll hi hg
  obtain ⟨hz1, hz2⟩ := Size_bounds hl hr hw
  obtain ⟨d1, hd1, g1, g2, g3, g4, g5⟩ := Reallocate_spec hi hl hr hw
  have hl1 : d1.left_ < block_size_ * d1.blocks_ := by
    simp only [g1, g3, block_size_eq, size_t_sub_eq] at *; omega
  have hr1 : d1.right_ < block_size_ * d1.blocks_ := by
    simp only [g2, g3, block_size_eq, size_t_sub_eq] at *; omega
  have hsz1 : d1.Size = d.Size := by
    simp only [Size, EmptyValue, g1, g2, g3, block_size_eq, size_t_sub_eq] at *
    split_ifs <;> omega
  refine ⟨d1, hd1, ⟨g4, Or.inr ⟨hl1, hr1, ?_⟩⟩, by omega, g1, by rw [g2, g1], ?_, hr1, hz1,
    hsz1, ?_, ?_, ?_⟩
  · intro hlt
    rw [g1, g2] at hlt; omega
  · rw [g1, g2]; omega
  · intro i hi'
    have : d1.real_index i = d.left_ % block_size_ + i := by
      simp only [real_index, g1, g3, block_size_eq, size_t_sub_eq] at *
      split_ifs <;> omega
    simp only [index, this]
    exact g5 i hi'
  · simp only [PushBackGrows, EmptyValue, g1, g2, g3, BlockByIndex, block_size_eq, size_t_sub_eq, ne_eq] at *
    split_ifs <;> omega
  · simp only [PushFrontGrows, EmptyValue, g1, g2, g3, BlockByIndex, block_size_eq, size_t_sub_eq, ne_eq] at *
    split_ifs <;> omega

/-- `PushBack` calls `Reallocate` once when it grows and not at all otherwise. -/
theorem PushBackCalls_spec {d : Deque} (hi : Inv d) (v : Int) (depth : Nat) :
    ∃ e n, PushBackCalls (depth + 2) d v = some (e, n) ∧ PushBack (depth + 2) d v = some e ∧
      n ≤ 1 ∧ (0 < n ↔ PushBackGrows d) ∧
      (PushBackGrows d → ∃ d1, d.Reallocate (d.blocks_ * 2) = some d1 ∧ ¬ PushBackGrows d1 ∧
        PushBackCalls (depth + 1) d1 v = some (e, 0)) := by
  obtain ⟨e, he, -⟩ := PushBack_spec hi v depth
  by_cases hg : PushBackGrows d
  · obtain ⟨d1, hd1, hi1, -, -, -, -, -, -, -, -, hn1, -⟩ := Reallocate_of_grows hi (Or.inl hg)
    obtain ⟨a, b⟩ := PushBackCalls_of_grows hg hd1 v (depth + 1)
    rw [b] at he
    have hc1 : PushBackCalls (depth + 1) d1 v = some (e, 0) := by
      rw [PushBackCalls_of_not_grows hn1, he]; rfl
    refine ⟨e, 1, by rw [a, hc1]; rfl, by rw [b]; exact he, le_refl _, ?_, ?_⟩
    · exact ⟨fun _ => hg, fun _ => Nat.one_pos⟩
    · intro _; exact ⟨d1, hd1, hn1, hc1⟩
  · refine ⟨e, 0, by rw [PushBackCalls_of_not_grows hg, he]; rfl, he, Nat.zero_le _, ?_, ?_⟩
    · exact ⟨fun h => absurd h (lt_irrefl 0), fun h => absurd h hg⟩
    · intro h; exact absurd h hg

/-- `PushFront` calls `Reallocate` once when it grows and not at all otherwise. -/
theorem PushFrontCalls_spec {d : Deque} (hi : Inv d) (v : Int) (depth : Nat) :
    ∃ e n, PushFrontCalls (depth + 2) d v = some (e, n) ∧ PushFront (depth + 2) d v = some e ∧
      n ≤ 1 ∧ (0 < n ↔ PushFrontGrows d) ∧
      (PushFrontGrows d → ∃ d1, d.Reallocate (d.blocks_ * 2) = some d1 ∧ ¬ PushFrontGrows d1 ∧
        PushFrontCalls (depth + 1) d1 v = some (e, 0)) := by
  obtain ⟨e, he, -⟩ := PushFront_spec hi v depth
  by_cases hg : PushFrontGrows d
  · obtain ⟨d1, hd1, hi1, -, -, -, -, -, -, -, -, -, hn1⟩ := Reallocate_of_grows hi (Or.inr hg)
    obtain ⟨a, b⟩ := PushFrontCalls_of_grows hg hd1 v (depth + 1)
    rw [b] at he
    have hc1 : PushFrontCalls (depth + 1) d1 v = some (e, 0) := by
      rw [PushFrontCalls_of_not_grows hn1, he]; rfl
    refine ⟨e, 1, by rw [a, hc1]; rfl, by rw [b]; exact he, le_refl _, ?_, ?_⟩
    · exact ⟨fun _ => hg, fun _ => Nat.one_pos⟩
    · intro _; exact ⟨d1, hd1, hn1, hc1⟩
  · refine ⟨e, 0, by rw [PushFrontCalls_of_not_grows hg, he]; rfl, he, Nat.zero_le _, ?_, ?_⟩
    · exact ⟨fun h => absurd h (lt_irrefl 0), fun h => absurd h hg⟩
    · intro h; exact absurd h hg

theorem Reallocate_data {d d1 : Deque} {nb : Nat} (h : d.Reallocate nb = some d1) :
    ∃ moved, Reallocate.transfer d.data_ d.blocks_ (BlockByIndex d.right_) nb
        (BlockByIndex d.left_) = some moved ∧
      d1.data_ = moved ++ List.replicate (nb - moved.length) (List.replicate block_size_ 0) := by
  unfold Reallocate at h
  simp only at h
  cases ht : Reallocate.transfer d.data_ d.blocks_ (BlockByIndex d.right_) nb
      (BlockByIndex d.left_) with
  | none => rw [ht] at h; simp at h
  | some moved =>
    rw [ht] at h
    simp only [Option.some.injEq] at h
    exact ⟨moved, rfl, by rw [← h]⟩

/-- The walk of `Reallocate` in a state where a push grows: all blocks, in
circular order from the block of `left_`. -/
theorem transfer_of_grows {d : Deque} (hi : Inv d) (hg : PushBackGrows d ∨ PushFrontGrows d) :
    Reallocate.transfer d.data_ d.blocks_ (BlockByIndex d.right_) (d.blocks_ * 2)
        (BlockByIndex d.left_) =
      some (d.data_.drop (BlockByIndex d.left_) ++ d.data_.take (BlockByIndex d.left_)) ∧
    (d.data_.drop (BlockByIndex d.left_) ++ d.data_.take (BlockByIndex d.left_)).length
      = d.blocks_ := by
  obtain ⟨hl, hr, hw⟩ := grows_WalkAll hi hg
  have hlen := hi.storage.len
  have hj : d.left_ / block_size_ < d.blocks_ := Nat.div_lt_of_lt_mul hl
  refine ⟨transfer_all d.data_ d.blocks_ (d.right_ / block_size_) (d.left_ / block_size_) hlen hj
    (by simp only [WalkAll] at hw; omega), ?_⟩
  simp only [BlockByIndex, List.length_append, List.length_drop, List.length_take]
  omega

theorem rotation_covers (data : List (List Int)) (j b : Nat) (hj : j < data.length)
    (hb : b < data.length) :
    ∃ q, q < (data.drop j ++ data.take j).length ∧ (data.drop j ++ data.take j)[q]? = data[b]? := by
  have hl : (data.drop j ++ data.take j).length = data.length := by
    simp; omega
  have key := rotated_getElem? data [] j
  simp only [List.append_nil] at key
  by_cases hc : j ≤ b
  · refine ⟨b - j, by omega, ?_⟩
    rw [key (b - j) hj (by omega), if_pos (by omega)]
    congr 1; omega
  · refine ⟨b + data.length - j, by omega, ?_⟩
    rw [key (b + data.length - j) hj (by omega), if_neg (by omega)]
    congr 1; omega

/-- Away from the sizes that wrap the rounding of `Assign`, on the states of
`Reachable`: for every reachable deque `d` (wrapped or not, empty or not) whose
size rounds to whole blocks within `size_t`, the copy constructor returns a deque
`c` with `c.Size() == d.Size()` and `c[i] == d[i]` for every `i < d.Size()`; `c`
has `left_ == 0` and `ceil(Size / 512)` blocks, the least count that covers the
size, whatever the layout of `d`.  The source is a `const` reference: the copy is
a function of `d` and returns only `c`. -/
theorem copy_equal_and_fresh (d : Deque) (hd : Reachable d)
    (hfit : d.Size + (block_size_ - 1) < size_t_card) :
    ∃ c, Deque.copy d = some c ∧ c.Size = d.Size ∧
      (∀ i, i < d.Size → ∃ x, d.index i = some x ∧ c.index i = some x) ∧
      c.left_ = 0 ∧ c.blocks_ = (d.Size + 511) / 512 ∧
      d.Size ≤ block_size_ * c.blocks_ ∧ (∀ b, d.Size ≤ block_size_ * b → c.blocks_ ≤ b) ∧
      (0 < d.Size → c.right_ = d.Size - 1) := by
  obtain ⟨c, hc, hi, h2, h3, h4, h5⟩ := copy_spec hd.inv hfit
  refine ⟨c, hc, h2, ?_, h3, h4, ?_, ?_, ?_⟩
  · intro i hlt
    obtain ⟨x, hx⟩ := index_isSome hd.inv hlt
    exact ⟨x, hx, by rw [h5 i hlt, hx]⟩
  · rw [h4]; simp only [block_size_eq, size_t_sub_eq]; omega
  · intro b hb
    rw [h4]; simp only [block_size_eq, size_t_sub_eq] at hb; omega
  · intro hpos
    have hsh := hi.shape
    generalize d.Size = n at h2 hpos ⊢
    simp only [Size, EmptyValue, h3, block_size_eq, size_t_sub_eq] at h2 hsh
    split_ifs at h2 <;> omega

/-- Claim C12: `Clear()` turns every state, reachable or not, into the
default-constructed state: zero blocks, no storage, `left_ == right_ == 0`, which
is the empty sentinel, and `Size() == 0`; `Clear` is idempotent, and on an empty
deque it leaves `Size() == 0`. -/
theorem Clear_is_default (d : Deque) :
    d.Clear = Deque.new ∧ d.Clear.blocks_ = 0 ∧ d.Clear.data_ = [] ∧ d.Clear.left_ = 0 ∧
      d.Clear.right_ = 0 ∧ d.Clear.EmptyValue = 0 ∧ d.Clear.Size = 0 ∧
      d.Clear.Clear = d.Clear ∧ (d.Size = 0 → d.Clear.Size = 0) := by
  have h : d.Clear = { left_ := 0, right_ := 0, blocks_ := 0, data_ := [] } := by
    rw [Clear, Assign_zero]
  have hn : Deque.new = { left_ := 0, right_ := 0, blocks_ := 0, data_ := [] } := by
    rw [Deque.new, Assign_zero]
  have hs : d.Clear.Size = 0 := by rw [h]; simp [Size, EmptyValue]
  refine ⟨by rw [h, hn], by rw [h], by rw [h], by rw [h], by rw [h], ?_, hs, ?_, fun _ => hs⟩
  · rw [h]; simp [EmptyValue]
  · rw [Clear, Assign_zero, h]

/-- Claim C13: in every reachable state `PopBack` and `PopFront` leave the block
count and every stored value unchanged, and a push returns with the block count
`b` either unchanged or equal to `max(1, 2 * b)`; so none of the four ever
lowers the block count. -/
theorem blocks_never_shrink (d : Deque) (hd : Reachable d) (v : Int) (depth : Nat) :
    (d.PopBack.blocks_ = d.blocks_ ∧ d.PopBack.data_ = d.data_) ∧
    (d.PopFront.blocks_ = d.blocks_ ∧ d.PopFront.data_ = d.data_) ∧
    (∃ e, d.PushBack (depth + 2) v = some e ∧
      (e.blocks_ = d.blocks_ ∨ e.blocks_ = max 1 (2 * d.blocks_)) ∧ d.blocks_ ≤ e.blocks_) ∧
    (∃ e, d.PushFront (depth + 2) v = some e ∧
      (e.blocks_ = d.blocks_ ∨ e.blocks_ = max 1 (2 * d.blocks_)) ∧ d.blocks_ ≤ e.blocks_) := by
  obtain ⟨-, a2, a3, -⟩ := PopBack_spec hd.inv
  obtain ⟨-, b2, b3, -⟩ := PopFront_spec hd.inv
  obtain ⟨e, he, -, -, h3, -⟩ := PushBack_spec hd.inv v depth
  obtain ⟨f, hf, -, -, k3, -⟩ := PushFront_spec hd.inv v depth
  refine ⟨⟨a2, a3⟩, ⟨b2, b3⟩, ⟨e, he, h3, ?_⟩, ⟨f, hf, k3, ?_⟩⟩
  · rcases h3 with h | h <;> omega
  · rcases k3 with h | h <;> omega

/-- Claim C13 at `Deque(3)` and the value 7. -/
theorem blocks_never_shrink_witness :
    Reachable (Deque.ofSize 3) ∧
    (((Deque.ofSize 3).PopBack.blocks_ = (Deque.ofSize 3).blocks_ ∧
      (Deque.ofSize 3).PopBack.data_ = (Deque.ofSize 3).data_) ∧
    ((Deque.ofSize 3).PopFront.blocks_ = (Deque.ofSize 3).blocks_ ∧
      (Deque.ofSize 3).PopFront.data_ = (Deque.ofSize 3).data_) ∧
    (∃ e, (Deque.ofSize 3).PushBack (0 + 2) 7 = some e ∧
      (e.blocks_ = (Deque.ofSize 3).blocks_ ∨ e.blocks_ = max 1 (2 * (Deque.ofSize 3).blocks_)) ∧
      (Deque.ofSize 3).blocks_ ≤ e.blocks_) ∧
    (∃ e, (Deque.ofSize 3).PushFront (0 + 2) 7 = some e ∧
      (e.blocks_ = (Deque.ofSize 3).blocks_ ∨ e.blocks_ = max 1 (2 * (Deque.ofSize 3).blocks_)) ∧
      (Deque.ofSize 3).blocks_ ≤ e.blocks_)) :=
  ⟨Reachable.ofSize 3 (by decide), blocks_never_shrink _ (Reachable.ofSize 3 (by decide)) 7 0⟩

set_option maxRecDepth 100000 in
/-- Claim C14 fails at `Deque(512)` after one `PopFront()` and at `Deque(512)` after
one `PopBack()`: one block, 511 of its 512 slots occupied, and `PushBack`
(in the first state) and `PushFront` (in the second) call `Reallocate`. -/
theorem growth_before_full :
    (Reachable (Deque.ofSize 512).PopFront ∧ (Deque.ofSize 512).PopFront.Size = 511 ∧
      block_size_ * (Deque.ofSize 512).PopFront.blocks_ = 512 ∧
      (PushBackCalls 2 (Deque.ofSize 512).PopFront 0).map Prod.snd = some 1) ∧
    (Reachable (Deque.ofSize 512).PopBack ∧ (Deque.ofSize 512).PopBack.Size = 511 ∧
      block_size_ * (Deque.ofSize 512).PopBack.blocks_ = 512 ∧
      (PushFrontCalls 2 (Deque.ofSize 512).PopBack 0).map Prod.snd = some 1) :=
  ⟨⟨Reachable.popFront _ (Reachable.ofSize 512 (by decide)), by decide, by decide, by decide⟩,
    ⟨Reachable.popBack _ (Reachable.ofSize 512 (by decide)), by decide, by decide, by decide⟩⟩

/-- Claim C14, amended: in every reachable non-empty state `PushBack` calls
`Reallocate` if and only if `Size() == block_size_ * blocks_ - left_ % block_size_`
(every slot is occupied except those before `left_` in its block), and
`PushFront` if and only if
`Size() == block_size_ * blocks_ - (block_size_ - 1 - right_ % block_size_)`
(every slot is occupied except those after `right_` in its block); a full ring
makes both grow. -/
theorem growth_test_characterized (d : Deque) (hd : Reachable d) (hne : 0 < d.Size)
    (v : Int) (depth : Nat) :
    (∃ e n, PushBackCalls (depth + 2) d v = some (e, n) ∧
      (0 < n ↔ d.Size + d.left_ % block_size_ = block_size_ * d.blocks_) ∧
      (d.Size = block_size_ * d.blocks_ → 0 < n)) ∧
    (∃ e n, PushFrontCalls (depth + 2) d v = some (e, n) ∧
      (0 < n ↔ d.Size + (block_size_ - 1 - d.right_ % block_size_) = block_size_ * d.blocks_) ∧
      (d.Size = block_size_ * d.blocks_ → 0 < n)) := by
  have hi := hd.inv
  have hle := Size_le hi
  have hb := PushBackGrows_iff hi
  have hf := PushFrontGrows_iff hi
  obtain ⟨e, n, h1, -, -, h4, -⟩ := PushBackCalls_spec hi v depth
  obtain ⟨f, m, k1, -, -, k4, -⟩ := PushFrontCalls_spec hi v depth
  have hmod : d.left_ % block_size_ < block_size_ := Nat.mod_lt _ (by decide)
  have hmod2 : d.right_ % block_size_ < block_size_ := Nat.mod_lt _ (by decide)
  refine ⟨⟨e, n, h1, ?_, ?_⟩, ⟨f, m, k1, ?_, ?_⟩⟩
  · rw [h4, hb]; exact ⟨fun h => h.2, fun h => ⟨hne, h⟩⟩
  · intro hfull
    rw [h4, hb]
    refine ⟨hne, ?_⟩
    have hsh := hi.shape
    simp only [Size, EmptyValue, block_size_eq, size_t_sub_eq] at *
    split_ifs at * <;> omega
  · rw [k4, hf]; exact ⟨fun h => h.2, fun h => ⟨hne, h⟩⟩
  · intro hfull
    rw [k4, hf]
    refine ⟨hne, ?_⟩
    have hsh := hi.shape
    simp only [Size, EmptyValue, block_size_eq, size_t_sub_eq] at *
    split_ifs at * <;> omega

/-- Claim C14, amended, at `Deque(512)` after one `PopFront()`. -/
theorem growth_test_characterized_witness :
    Reachable (Deque.ofSize 512).PopFront ∧ 0 < (Deque.ofSize 512).PopFront.Size ∧
    ((∃ e n, PushBackCalls (0 + 2) (Deque.ofSize 512).PopFront 7 = some (e, n) ∧
      (0 < n ↔ (Deque.ofSize 512).PopFront.Size + (Deque.ofSize 512).PopFront.left_ % block_size_
        = block_size_ * (Deque.ofSize 512).PopFront.blocks_) ∧
      ((Deque.ofSize 512).PopFront.Size = block_size_ * (Deque.ofSize 512).PopFront.blocks_ →
        0 < n)) ∧
    (∃ e n, PushFrontCalls (0 + 2) (Deque.ofSize 512).PopFront 7 = some (e, n) ∧
      (0 < n ↔ (Deque.ofSize 512).PopFront.Size +
        (block_size_ - 1 - (Deque.ofSize 512).PopFront.right_ % block_size_)
        = block_size_ * (Deque.ofSize 512).PopFront.blocks_) ∧
      ((Deque.ofSize 512).PopFront.Size = block_size_ * (Deque.ofSize 512).PopFront.blocks_ →
        0 < n))) :=
  ⟨Reachable.popFront _ (Reachable.ofSize 512 (by decide)), by decide,
    growth_test_characterized _ (Reachable.popFront _ (Reachable.ofSize 512 (by decide)))
      (by decide) 7 0⟩

/-- Claim C15: in every reachable state `PushBack` and `PushFront` return within
call depth two and call `Reallocate` at most once: when a push calls
`Reallocate(blocks_ * 2)`, the retry in the grown state does not grow again and
returns without a further call. -/
theorem push_reallocates_at_most_once (d : Deque) (hd : Reachable d) (v : Int) (depth : Nat) :
    (∃ e n, PushBackCalls (depth + 2) d v = some (e, n) ∧ d.PushBack (depth + 2) v = some e ∧
      n ≤ 1 ∧
      (PushBackGrows d → ∃ d1, d.Reallocate (d.blocks_ * 2) = some d1 ∧ ¬ PushBackGrows d1 ∧
        PushBackCalls (depth + 1) d1 v = some (e, 0))) ∧
    (∃ e n, PushFrontCalls (depth + 2) d v = some (e, n) ∧ d.PushFront (depth + 2) v = some e ∧
      n ≤ 1 ∧
      (PushFrontGrows d → ∃ d1, d.Reallocate (d.blocks_ * 2) = some d1 ∧ ¬ PushFrontGrows d1 ∧
        PushFrontCalls (depth + 1) d1 v = some (e, 0))) := by
  obtain ⟨e, n, h1, h2, h3, -, h5⟩ := PushBackCalls_spec hd.inv v depth
  obtain ⟨f, m, k1, k2, k3, -, k5⟩ := PushFrontCalls_spec hd.inv v depth
  exact ⟨⟨e, n, h1, h2, h3, h5⟩, ⟨f, m, k1, k2, k3, k5⟩⟩

/-- Claim C15 at `Deque(512)`, where both pushes grow, and the value 7. -/
theorem push_reallocates_at_most_once_witness :
    Reachable (Deque.ofSize 512) ∧
    ((∃ e n, PushBackCalls (0 + 2) (Deque.ofSize 512) 7 = some (e, n) ∧
      (Deque.ofSize 512).PushBack (0 + 2) 7 = some e ∧ n ≤ 1 ∧
      (PushBackGrows (Deque.ofSize 512) →
        ∃ d1, (Deque.ofSize 512).Reallocate ((Deque.ofSize 512).blocks_ * 2) = some d1 ∧
          ¬ PushBackGrows d1 ∧ PushBackCalls (0 + 1) d1 7 = some (e, 0))) ∧
    (∃ e n, PushFrontCalls (0 + 2) (Deque.ofSize 512) 7 = some (e, n) ∧
      (Deque.ofSize 512).PushFront (0 + 2) 7 = some e ∧ n ≤ 1 ∧
      (PushFrontGrows (Deque.ofSize 512) →
        ∃ d1, (Deque.ofSize 512).Reallocate ((Deque.ofSize 512).blocks_ * 2) = some d1 ∧
          ¬ PushFrontGrows d1 ∧ PushFrontCalls (0 + 1) d1 7 = some (e, 0)))) :=
  ⟨Reachable.ofSize 512 (by decide),
    push_reallocates_at_most_once _ (Reachable.ofSize 512 (by decide)) 7 0⟩

/-- Claim C16: in every reachable state where a push grows (such a state is
non-empty), `Reallocate(blocks_ * 2)` returns a state with twice the block count
whose ring is not wrapped: the new `left_` is the old `left_ % block_size_`, the
new `right_` is the new `left_` plus the size minus one, with
`left_ <= right_ < block_size_ * blocks_`; `Size()` and every `operator[](i)`
are unchanged; the new block array holds all old blocks, in circular order from
the block of `left_`, followed by fresh zero blocks. -/
theorem Reallocate_unwraps (d : Deque) (hd : Reachable d)
    (hg : PushBackGrows d ∨ PushFrontGrows d) :
    ∃ d1, d.Reallocate (d.blocks_ * 2) = some d1 ∧ 0 < d.Size ∧ d1.blocks_ = 2 * d.blocks_ ∧
      d1.left_ = d.left_ % block_size_ ∧ d1.right_ = d1.left_ + d.Size - 1 ∧
      d1.left_ ≤ d1.right_ ∧ d1.right_ < block_size_ * d1.blocks_ ∧ d1.Size = d.Size ∧
      (∀ i, i < d.Size → ∃ x, d.index i = some x ∧ d1.index i = some x) ∧
      d1.data_ = (d.data_.drop (BlockByIndex d.left_) ++ d.data_.take (BlockByIndex d.left_)) ++
        List.replicate d.blocks_ (List.replicate block_size_ 0) := by
  have hi := hd.inv
  obtain ⟨d1, hd1, -, h2, h3, h4, h5, h6, h7, h8, h9, -, -⟩ := Reallocate_of_grows hi hg
  refine ⟨d1, hd1, h7, h2, h3, h4, h5, h6, h8, ?_, ?_⟩
  · intro i hlt
    obtain ⟨x, hx⟩ := index_isSome hi hlt
    exact ⟨x, hx, by rw [h9 i hlt, hx]⟩
  · obtain ⟨moved, hm, hdata⟩ := Reallocate_data hd1
    obtain ⟨ht, hlen⟩ := transfer_of_grows hi hg
    rw [ht] at hm
    cases hm
    rw [hdata, hlen]
    congr 2
    omega

/-- Claim C16 at `Deque(512)` after one `PopFront()`, where `PushBack` grows. -/
theorem Reallocate_unwraps_witness :
    Reachable (Deque.ofSize 512).PopFront ∧
    (PushBackGrows (Deque.ofSize 512).PopFront ∨ PushFrontGrows (Deque.ofSize 512).PopFront) ∧
    ∃ d1, (Deque.ofSize 512).PopFront.Reallocate ((Deque.ofSize 512).PopFront.blocks_ * 2)
        = some d1 ∧
      0 < (Deque.ofSize 512).PopFront.Size ∧
      d1.blocks_ = 2 * (Deque.ofSize 512).PopFront.blocks_ ∧
      d1.left_ = (Deque.ofSize 512).PopFront.left_ % block_size_ ∧
      d1.right_ = d1.left_ + (Deque.ofSize 512).PopFront.Size - 1 ∧
      d1.left_ ≤ d1.right_ ∧ d1.right_ < block_size_ * d1.blocks_ ∧
      d1.Size = (Deque.ofSize 512).PopFront.Size ∧
      (∀ i, i < (Deque.ofSize 512).PopFront.Size →
        ∃ x, (Deque.ofSize 512).PopFront.index i = some x ∧ d1.index i = some x) ∧
      d1.data_ =
        ((Deque.ofSize 512).PopFront.data_.drop (BlockByIndex (Deque.ofSize 512).PopFront.left_) ++
          (Deque.ofSize 512).PopFront.data_.take (BlockByIndex (Deque.ofSize 512).PopFront.left_))
        ++ List.replicate (Deque.ofSize 512).PopFront.blocks_ (List.replicate block_size_ 0) :=
  ⟨Reachable.popFront _ (Reachable.ofSize 512 (by decide)), Or.inl (by decide),
    Reallocate_unwraps _ (Reachable.popFront _ (Reachable.ofSize 512 (by decide)))
      (Or.inl (by decide))⟩

/-- Away from the sizes that wrap the rounding of `Assign`, on the states of
`Reachable`: invariant I2 holds in every reachable state: when `Size() > 0`, both
`left_` and `right_` are below `block_size_ * blocks_`, which is then a positive
multiple of `block_size_`; the block array has `blocks_` blocks, and
`block_size_ * blocks_` is zero exactly when there is no block. -/
theorem ends_below_total_slots (d : Deque) (hd : Reachable d) :
    (0 < d.Size → d.left_ < block_size_ * d.blocks_ ∧ d.right_ < block_size_ * d.blocks_ ∧
      0 < block_size_ * d.blocks_) ∧
    block_size_ ∣ block_size_ * d.blocks_ ∧
    (0 < d.blocks_ → 0 < block_size_ * d.blocks_) ∧
    d.data_.length = d.blocks_ ∧
    (block_size_ * d.blocks_ = 0 ↔ d.blocks_ = 0) ∧
    (block_size_ * d.blocks_ = 0 ↔ d.data_ = []) := by
  have hi := hd.inv
  have hlen := hi.storage.len
  refine ⟨?_, Dvd.intro _ rfl, ?_, hlen, ?_, ?_⟩
  · intro hpos
    obtain ⟨a, b⟩ := occupied_of_Size_pos hi hpos
    exact ⟨a, b, by omega⟩
  · intro hb; simp only [block_size_eq, size_t_sub_eq]; omega
  · simp only [block_size_eq, size_t_sub_eq]; omega
  · rw [← List.length_eq_zero, hlen]; simp only [block_size_eq, size_t_sub_eq]; omega

/-- Away from the sizes that wrap the rounding of `Assign`, on the states of
`Reachable`: in every reachable state and for every `i < Size()`, `left_ + i` is
below twice `block_size_ * blocks_`, so the one conditional subtraction of
`operator[]` gives a real slot below `block_size_ * blocks_`; that slot lies in
the occupied circular range from `left_` to `right_`; `Convert` maps it to a
block index below `blocks_` and an offset below `block_size_`, and the read is
inside an allocated block. -/
theorem index_translation_in_bounds (d : Deque) (hd : Reachable d) (i : Nat) (h : i < d.Size) :
    d.left_ + i < 2 * (block_size_ * d.blocks_) ∧
    d.real_index i < block_size_ * d.blocks_ ∧
    InRange d (d.real_index i) ∧
    (Convert (d.real_index i)).1 < d.blocks_ ∧ (Convert (d.real_index i)).2 < block_size_ ∧
    (∃ block, d.data_[(Convert (d.real_index i)).1]? = some block ∧
      (Convert (d.real_index i)).2 < block.length) ∧
    ∃ x, d.index i = some x := by
  have hi := hd.inv
  have hlt := real_index_lt hi h
  have hq : (Convert (d.real_index i)).1 < d.blocks_ := Nat.div_lt_of_lt_mul hlt
  have ho : (Convert (d.real_index i)).2 < block_size_ := Nat.mod_lt _ (by decide)
  have hql : (Convert (d.real_index i)).1 < d.data_.length := by rw [hi.storage.len]; exact hq
  refine ⟨?_, hlt, ?_, hq, ho, ?_, index_isSome hi h⟩
  · have hsh := hi.shape
    simp only [Size, EmptyValue, block_size_eq, size_t_sub_eq] at *
    split_ifs at h <;> omega
  · have hsh := hi.shape
    simp only [InRange, Size, EmptyValue, real_index, block_size_eq, size_t_sub_eq] at *
    split_ifs at * <;> omega
  · refine ⟨d.data_[(Convert (d.real_index i)).1], List.getElem?_eq_getElem hql, ?_⟩
    rw [hi.storage.blk _ (List.getElem_mem hql)]
    exact ho

theorem pop_of_sentinel {d : Deque} (hl : d.left_ = d.EmptyValue)
    (hr : d.right_ = d.EmptyValue) : d.PopBack = d ∧ d.PopFront = d := by
  obtain ⟨l, r, b, dat⟩ := d
  simp only [EmptyValue] at hl hr
  subst hl hr
  simp [PopBack, PopFront, EmptyValue]

/-- Claim C19: in every reachable state with `Size() == 0`, `PopBack()` and
`PopFront()` change nothing: `left_`, `right_`, `blocks_` and the storage are as
before and `Size()` is still 0, so a push after the pop does what it does
without the pop. -/
theorem pop_on_empty_changes_nothing (d : Deque) (hd : Reachable d) (h : d.Size = 0) :
    d.PopBack = d ∧ d.PopFront = d ∧
    (d.PopBack.left_ = d.left_ ∧ d.PopBack.right_ = d.right_ ∧ d.PopBack.blocks_ = d.blocks_ ∧
      d.PopBack.data_ = d.data_ ∧ d.PopBack.Size = 0) ∧
    (d.PopFront.left_ = d.left_ ∧ d.PopFront.right_ = d.right_ ∧ d.PopFront.blocks_ = d.blocks_ ∧
      d.PopFront.data_ = d.data_ ∧ d.PopFront.Size = 0) ∧
    (∀ depth v, d.PopBack.PushBack depth v = d.PushBack depth v ∧
      d.PopBack.PushFront depth v = d.PushFront depth v ∧
      d.PopFront.PushBack depth v = d.PushBack depth v ∧
      d.PopFront.PushFront depth v = d.PushFront depth v) := by
  obtain ⟨hl, hr⟩ := (Size_eq_zero_iff hd.inv).mp h
  obtain ⟨hb, hf⟩ := pop_of_sentinel hl hr
  refine ⟨hb, hf, ?_, ?_, ?_⟩
  · rw [hb]; exact ⟨rfl, rfl, rfl, rfl, h⟩
  · rw [hf]; exact ⟨rfl, rfl, rfl, rfl, h⟩
  · intro depth v
    rw [hb, hf]
    exact ⟨rfl, rfl, rfl, rfl⟩

/-- Claim C19 at `Deque(1)` after one `PopBack()`: empty, one block retained. -/
theorem pop_on_empty_changes_nothing_witness :
    Reachable (Deque.ofSize 1).PopBack ∧ (Deque.ofSize 1).PopBack.Size = 0 ∧
    ((Deque.ofSize 1).PopBack.PopBack = (Deque.ofSize 1).PopBack ∧
    (Deque.ofSize 1).PopBack.PopFront = (Deque.ofSize 1).PopBack ∧
    ((Deque.ofSize 1).PopBack.PopBack.left_ = (Deque.ofSize 1).PopBack.left_ ∧
      (Deque.ofSize 1).PopBack.PopBack.right_ = (Deque.ofSize 1).PopBack.right_ ∧
      (Deque.ofSize 1).PopBack.PopBack.blocks_ = (Deque.ofSize 1).PopBack.blocks_ ∧
      (Deque.ofSize 1).PopBack.PopBack.data_ = (Deque.ofSize 1).PopBack.data_ ∧
      (Deque.ofSize 1).PopBack.PopBack.Size = 0) ∧
    ((Deque.ofSize 1).PopBack.PopFront.left_ = (Deque.ofSize 1).PopBack.left_ ∧
      (Deque.ofSize 1).PopBack.PopFront.right_ = (Deque.ofSize 1).PopBack.right_ ∧
      (Deque.ofSize 1).PopBack.PopFront.blocks_ = (Deque.ofSize 1).PopBack.blocks_ ∧
      (Deque.ofSize 1).PopBack.PopFront.data_ = (Deque.ofSize 1).PopBack.data_ ∧
      (Deque.ofSize 1).PopBack.PopFront.Size = 0) ∧
    (∀ depth v,
      (Deque.ofSize 1).PopBack.PopBack.PushBack depth v = (Deque.ofSize 1).PopBack.PushBack depth v ∧
      (Deque.ofSize 1).PopBack.PopBack.PushFront depth v
        = (Deque.ofSize 1).PopBack.PushFront depth v ∧
      (Deque.ofSize 1).PopBack.PopFront.PushBack depth v
        = (Deque.ofSize 1).PopBack.PushBack depth v ∧
      (Deque.ofSize 1).PopBack.PopFront.PushFront depth v
        = (Deque.ofSize 1).PopBack.PushFront depth v)) :=
  ⟨Reachable.popBack _ (Reachable.ofSize 1 (by decide)), by decide,
    pop_on_empty_changes_nothing _ (Reachable.popBack _ (Reachable.ofSize 1 (by decide)))
      (by decide)⟩

/-- Claim C20: in every reachable non-empty state with `right_ < left_`, the block
of `right_` is before the block of `left_`; and in every reachable state where a
push calls `Reallocate`, its walk from the block of `left_` to the block of
`right_` returns all `blocks_` blocks, in circular order from the block of
`left_` (more than one block when the range is wrapped), so the block of every
live element is among them. -/
theorem wrapped_ends_in_different_blocks (d : Deque) (hd : Reachable d) :
    (0 < d.Size → d.right_ < d.left_ → BlockByIndex d.right_ < BlockByIndex d.left_) ∧
    (PushBackGrows d ∨ PushFrontGrows d →
      ∃ moved, Reallocate.transfer d.data_ d.blocks_ (BlockByIndex d.right_) (d.blocks_ * 2)
          (BlockByIndex d.left_) = some moved ∧
        moved = d.data_.drop (BlockByIndex d.left_) ++ d.data_.take (BlockByIndex d.left_) ∧
        moved.length = d.blocks_ ∧
        (d.right_ < d.left_ → 1 < moved.length) ∧
        ∀ i, i < d.Size →
          ∃ q, q < moved.length ∧ moved[q]? = d.data_[BlockByIndex (d.real_index i)]?) := by
  have hi := hd.inv
  have hlen := hi.storage.len
  have hwrap : 0 < d.Size → d.right_ < d.left_ →
      BlockByIndex d.right_ < BlockByIndex d.left_ := by
    intro hpos hlt
    obtain ⟨a, b⟩ := occupied_of_Size_pos hi hpos
    rcases hi.shape with he | ⟨-, -, hw⟩
    · omega
    · exact hw hlt
  refine ⟨hwrap, ?_⟩
  intro hg
  obtain ⟨ht, hml⟩ := transfer_of_grows hi hg
  obtain ⟨hl, hr, -⟩ := grows_WalkAll hi hg
  have hj : BlockByIndex d.left_ < d.data_.length := by
    rw [hlen]; exact Nat.div_lt_of_lt_mul hl
  refine ⟨_, ht, rfl, hml, ?_, ?_⟩
  · intro hlt
    have hpos : 0 < d.Size := by
      have := (Reallocate_of_grows hi hg)
      obtain ⟨_, _, _, _, _, _, _, _, h7, _⟩ := this
      exact h7
    have h1 := hwrap hpos hlt
    have h2 : BlockByIndex d.left_ < d.blocks_ := by rw [← hlen]; exact hj
    rw [hml]; omega
  · intro i hlt
    have hb : BlockByIndex (d.real_index i) < d.data_.length := by
      rw [hlen]; exact Nat.div_lt_of_lt_mul (real_index_lt hi hlt)
    exact rotation_covers d.data_ _ _ hj hb

set_option maxRecDepth 100000 in
/-- Claim C20 at the state after `Deque d(513); d.PopBack(); d.PushFront(7);`:
non-empty, wrapped (`right_ = 511 < left_ = 1023`, two blocks), and `PushBack`
grows there, so `Reallocate` walks from block 1 through block 0. -/
theorem wrapped_ends_in_different_blocks_witness :
    Reachable wrapped_state ∧ 0 < wrapped_state.Size ∧
    wrapped_state.right_ < wrapped_state.left_ ∧ PushBackGrows wrapped_state ∧
    ((0 < wrapped_state.Size → wrapped_state.right_ < wrapped_state.left_ →
      BlockByIndex wrapped_state.right_ < BlockByIndex wrapped_state.left_) ∧
    (PushBackGrows wrapped_state ∨ PushFrontGrows wrapped_state →
      ∃ moved, Reallocate.transfer wrapped_state.data_ wrapped_state.blocks_
          (BlockByIndex wrapped_state.right_) (wrapped_state.blocks_ * 2)
          (BlockByIndex wrapped_state.left_) = some moved ∧
        moved = wrapped_state.data_.drop (BlockByIndex wrapped_state.left_) ++
          wrapped_state.data_.take (BlockByIndex wrapped_state.left_) ∧
        moved.length = wrapped_state.blocks_ ∧
        (wrapped_state.right_ < wrapped_state.left_ → 1 < moved.length) ∧
        ∀ i, i < wrapped_state.Size →
          ∃ q, q < moved.length ∧
            moved[q]? = wrapped_state.data_[BlockByIndex (wrapped_state.real_index i)]?)) :=
  ⟨Reachable.pushFront 2 _ _ 7 (Reachable.popBack _ (Reachable.ofSize 513 (by decide)))
      (by decide),
    by decide, by decide, by decide,
    wrapped_ends_in_different_blocks _
      (Reachable.pushFront 2 _ _ 7 (Reachable.popBack _ (Reachable.ofSize 513 (by decide)))
        (by decide))⟩

/-! ## The sized constructor at a size that wraps -/

/-- The state `Deque d(-1)` is in: the size `2 ^ 64 - 1` wraps the rounding of
`Assign`, so there is no block, `left_ = 0` and `right_ = 2 ^ 64 - 2`. -/
theorem ofSize_wrapped_eq :
    Deque.ofSize (2 ^ 64 - 1) = { left_ := 0, right_ := 2 ^ 64 - 2, blocks_ := 0, data_ := [] } := by
  have hb : ((2 ^ 64 - 1 + block_size_ - 1) % size_t_card) / block_size_ = 0 := by
    norm_num [block_size_, size_t_card]
  simp only [Deque.ofSize, Assign, hb]
  norm_num

theorem ofSize_wrapped_Size : (Deque.ofSize (2 ^ 64 - 1)).Size = 2 ^ 64 - 1 := by
  rw [ofSize_wrapped_eq]; simp [Size, EmptyValue]

theorem index_of_no_storage {d : Deque} (h : d.data_ = []) (i : Nat) : d.index i = none := by
  simp [index, IntByIndex, h]

theorem IntByIndexAssign_of_no_storage {d : Deque} (h : d.data_ = []) (idx : Nat) (v : Int) :
    d.IntByIndexAssign idx v = none := by
  simp [IntByIndexAssign, h]

theorem indexAssign_of_no_storage {d : Deque} (h : d.data_ = []) (i : Nat) (v : Int) :
    d.indexAssign i v = none := by
  simp [indexAssign, IntByIndexAssign, h]

/-- Claim C2 at `Deque d(-1); d.PushBack(7);`: the constructor returns with
`Size() == 2 ^ 64 - 1` and no block; `PushBack` takes the branch of line 185 and
leaves one block with `left_ == right_ == 0`, so `Size()` is 1, not the old size
plus one (nor that sum reduced to `size_t`), and `operator[](old Size())` is
outside the storage, as every read was before the push. -/
theorem PushBack_after_wrapped_ofSize :
    2 ^ 64 - 1 < size_t_card ∧ (Deque.ofSize (2 ^ 64 - 1)).Size = 2 ^ 64 - 1 ∧
    (Deque.ofSize (2 ^ 64 - 1)).index 0 = none ∧
    ∃ e, (Deque.ofSize (2 ^ 64 - 1)).PushBack 2 7 = some e ∧
      e.left_ = 0 ∧ e.right_ = 0 ∧ e.blocks_ = 1 ∧ e.Size = 1 ∧
      e.Size ≠ (Deque.ofSize (2 ^ 64 - 1)).Size + 1 ∧
      e.Size ≠ ((Deque.ofSize (2 ^ 64 - 1)).Size + 1) % size_t_card ∧
      e.index (Deque.ofSize (2 ^ 64 - 1)).Size = none := by
  refine ⟨by norm_num [size_t_card], ofSize_wrapped_Size, ?_, ?_⟩
  · exact index_of_no_storage (by rw [ofSize_wrapped_eq]) 0
  · have hi : Inv { left_ := 0, right_ := 0, blocks_ := 0, data_ := [] } := Inv_members
    obtain ⟨e, he, -, h2, h3, h4, -⟩ := push_empty hi 7
    simp only [if_true, Assign_one] at he
    have hb : (Deque.ofSize (2 ^ 64 - 1)).blocks_ = 0 := by rw [ofSize_wrapped_eq]
    have hpush : (Deque.ofSize (2 ^ 64 - 1)).PushBack 2 7 = some e := by
      rw [PushBack, if_pos hb]
      simp only [Assign_one]
      exact he
    have h2' : e.blocks_ = 1 := by simpa using h2
    have hsz : e.Size = 1 := Size_single h3 h4 (by omega)
    refine ⟨e, hpush, h3, h4, h2', hsz, ?_, ?_, ?_⟩
    · rw [hsz, ofSize_wrapped_Size]; norm_num
    · rw [hsz, ofSize_wrapped_Size]; norm_num [size_t_card]
    · rw [ofSize_wrapped_Size]
      obtain ⟨_, _, _, hst⟩ := IntByIndexAssign_keeps he ⟨rfl, by simp⟩
      have hlen : e.data_.length = 1 := by rw [hst.len, h2']
      simp only [index, real_index, IntByIndex, Convert, BlockByIndex, h3, h2', block_size_eq]
      norm_num
      rw [List.getElem?_eq_none (by rw [hlen]; norm_num)]

/-- Claim C3 at `Deque d(-1); d.PushFront(7);`: the constructor returns with
`Size() == 2 ^ 64 - 1` and no block; `PushFront` takes the branch of line 230
and leaves one block with `left_ == right_ == 0`, so `Size()` is 1, not the old
size plus one (nor that sum reduced to `size_t`), and the reads before the push
were outside the storage. -/
theorem PushFront_after_wrapped_ofSize :
    2 ^ 64 - 1 < size_t_card ∧ (Deque.ofSize (2 ^ 64 - 1)).Size = 2 ^ 64 - 1 ∧
    (∀ i, (Deque.ofSize (2 ^ 64 - 1)).index i = none) ∧
    ∃ e, (Deque.ofSize (2 ^ 64 - 1)).PushFront 2 7 = some e ∧
      e.left_ = 0 ∧ e.right_ = 0 ∧ e.blocks_ = 1 ∧ e.Size = 1 ∧
      e.Size ≠ (Deque.ofSize (2 ^ 64 - 1)).Size + 1 ∧
      e.Size ≠ ((Deque.ofSize (2 ^ 64 - 1)).Size + 1) % size_t_card := by
  refine ⟨by norm_num [size_t_card], ofSize_wrapped_Size, ?_, ?_⟩
  · exact index_of_no_storage (by rw [ofSize_wrapped_eq])
  · have hi : Inv { left_ := 0, right_ := 0, blocks_ := 0, data_ := [] } := Inv_members
    obtain ⟨e, he, -, h2, h3, h4, -⟩ := push_empty hi 7
    simp only [if_true, Assign_one] at he
    have hb : (Deque.ofSize (2 ^ 64 - 1)).blocks_ = 0 := by rw [ofSize_wrapped_eq]
    have hpush : (Deque.ofSize (2 ^ 64 - 1)).PushFront 2 7 = some e := by
      rw [PushFront, if_pos hb]
      simp only [Assign_one]
      exact he
    have h2' : e.blocks_ = 1 := by simpa using h2
    have hsz : e.Size = 1 := Size_single h3 h4 (by omega)
    refine ⟨e, hpush, h3, h4, h2', hsz, ?_, ?_⟩
    · rw [hsz, ofSize_wrapped_Size]; norm_num
    · rw [hsz, ofSize_wrapped_Size]; norm_num [size_t_card]

/-- Claim C4 at `Deque d(-1); d.PopFront();`: `Size()` is `2 ^ 64 - 1 >= 1` with no
block; `PopFront` compares `left_` with `0 - 1`, which wraps, and increments
`left_`; before and after the pop every `operator[]` read is outside the
zero-length block array, so no position reads as a value. -/
theorem PopFront_after_wrapped_ofSize :
    2 ^ 64 - 1 < size_t_card ∧ 1 ≤ (Deque.ofSize (2 ^ 64 - 1)).Size ∧
    (Deque.ofSize (2 ^ 64 - 1)).PopFront =
      { left_ := 1, right_ := 2 ^ 64 - 2, blocks_ := 0, data_ := [] } ∧
    0 < (Deque.ofSize (2 ^ 64 - 1)).PopFront.Size ∧
    ∀ i, (Deque.ofSize (2 ^ 64 - 1)).PopFront.index i = none ∧
      (Deque.ofSize (2 ^ 64 - 1)).index (i + 1) = none := by
  have hp : (Deque.ofSize (2 ^ 64 - 1)).PopFront =
      { left_ := 1, right_ := 2 ^ 64 - 2, blocks_ := 0, data_ := [] } := by
    rw [ofSize_wrapped_eq]
    simp [PopFront, size_t_sub, size_t_card, EmptyValue]
  refine ⟨by norm_num [size_t_card], by rw [ofSize_wrapped_Size]; norm_num, hp, ?_, ?_⟩
  · rw [hp]; simp [Size, EmptyValue]
  · intro i
    exact ⟨index_of_no_storage (by rw [hp]) i,
      index_of_no_storage (by rw [ofSize_wrapped_eq]) (i + 1)⟩

/-- Claim C5 at `Deque d(-1); d.PopBack();`: `Size()` is `2 ^ 64 - 1 >= 1` with no
block; `PopBack` decrements `right_`; before and after the pop every
`operator[]` read is outside the zero-length block array, so no position reads
as a value. -/
theorem PopBack_after_wrapped_ofSize :
    2 ^ 64 - 1 < size_t_card ∧ 1 ≤ (Deque.ofSize (2 ^ 64 - 1)).Size ∧
    (Deque.ofSize (2 ^ 64 - 1)).PopBack =
      { left_ := 0, right_ := 2 ^ 64 - 3, blocks_ := 0, data_ := [] } ∧
    0 < (Deque.ofSize (2 ^ 64 - 1)).PopBack.Size ∧
    ∀ i, (Deque.ofSize (2 ^ 64 - 1)).PopBack.index i = none ∧
      (Deque.ofSize (2 ^ 64 - 1)).index i = none := by
  have hp : (Deque.ofSize (2 ^ 64 - 1)).PopBack =
      { left_ := 0, right_ := 2 ^ 64 - 3, blocks_ := 0, data_ := [] } := by
    rw [ofSize_wrapped_eq]
    simp [PopBack, EmptyValue]
  refine ⟨by norm_num [size_t_card], by rw [ofSize_wrapped_Size]; norm_num, hp, ?_, ?_⟩
  · rw [hp]; simp [Size, EmptyValue]
  · intro i
    exact ⟨index_of_no_storage (by rw [hp]) i,
      index_of_no_storage (by rw [ofSize_wrapped_eq]) i⟩

/-- Claim C6 at `Deque d(-1); d[0] = 9;`: position 0 is below `Size()`, and the write
goes to `data_[0][0]` of a zero-length block array, as does every other write
and read. -/
theorem indexAssign_after_wrapped_ofSize :
    2 ^ 64 - 1 < size_t_card ∧ 0 < (Deque.ofSize (2 ^ 64 - 1)).Size ∧
    (Deque.ofSize (2 ^ 64 - 1)).indexAssign 0 9 = none ∧
    (∀ i v, (Deque.ofSize (2 ^ 64 - 1)).indexAssign i v = none) ∧
    ∀ i, (Deque.ofSize (2 ^ 64 - 1)).index i = none := by
  have hd : (Deque.ofSize (2 ^ 64 - 1)).data_ = [] := by rw [ofSize_wrapped_eq]
  exact ⟨by norm_num [size_t_card], by rw [ofSize_wrapped_Size]; norm_num,
    indexAssign_of_no_storage hd 0 9, indexAssign_of_no_storage hd, index_of_no_storage hd⟩

/-- Claim C11 at `Deque d(-1); Deque c(d);`: the copy constructor calls
`Assign(2 ^ 64 - 1)`, which again allocates no block, and its first iteration
reads `rhs[0]` and writes `data_[0][0]` outside the storage. -/
theorem copy_after_wrapped_ofSize :
    2 ^ 64 - 1 < size_t_card ∧ 0 < (Deque.ofSize (2 ^ 64 - 1)).Size ∧
    (Assign members (Deque.ofSize (2 ^ 64 - 1)).Size).blocks_ = 0 ∧
    (Deque.ofSize (2 ^ 64 - 1)).index 0 = none ∧
    (Assign members (Deque.ofSize (2 ^ 64 - 1)).Size).IntByIndexAssign 0 0 = none ∧
    Deque.copy (Deque.ofSize (2 ^ 64 - 1)) = none := by
  have hd : (Deque.ofSize (2 ^ 64 - 1)).data_ = [] := by rw [ofSize_wrapped_eq]
  have hi : (Deque.ofSize (2 ^ 64 - 1)).index 0 = none := index_of_no_storage hd 0
  have ha : Assign members (Deque.ofSize (2 ^ 64 - 1)).Size = Deque.ofSize (2 ^ 64 - 1) := by
    rw [ofSize_wrapped_Size]; rfl
  refine ⟨by norm_num [size_t_card], by rw [ofSize_wrapped_Size]; norm_num, ?_, hi, ?_, ?_⟩
  · rw [ha, ofSize_wrapped_eq]
  · rw [ha]; exact IntByIndexAssign_of_no_storage hd 0 0
  · rw [Deque.copy, ofSize_wrapped_Size]
    have : (2 ^ 64 - 1 : Nat) = (2 ^ 64 - 2) + 1 := by norm_num
    rw [this, copyLoop]
    have hi' : (Deque.ofSize (2 ^ 64 - 2 + 1)).index 0 = none := by
      rw [← this]; exact hi
    rw [hi']

/-- Claim C17 at `Deque d(-1)`: `Size()` is `2 ^ 64 - 1 > 0` while there is no block,
so `block_size_ * blocks_` is 0 and neither `left_` nor `right_` is below it. -/
theorem ends_after_wrapped_ofSize :
    2 ^ 64 - 1 < size_t_card ∧ 0 < (Deque.ofSize (2 ^ 64 - 1)).Size ∧
    (Deque.ofSize (2 ^ 64 - 1)).blocks_ = 0 ∧
    block_size_ * (Deque.ofSize (2 ^ 64 - 1)).blocks_ = 0 ∧
    (Deque.ofSize (2 ^ 64 - 1)).left_ = 0 ∧ (Deque.ofSize (2 ^ 64 - 1)).right_ = 2 ^ 64 - 2 ∧
    ¬ (Deque.ofSize (2 ^ 64 - 1)).left_ < block_size_ * (Deque.ofSize (2 ^ 64 - 1)).blocks_ ∧
    ¬ (Deque.ofSize (2 ^ 64 - 1)).right_ < block_size_ * (Deque.ofSize (2 ^ 64 - 1)).blocks_ := by
  refine ⟨by norm_num [size_t_card], by rw [ofSize_wrapped_Size]; norm_num, ?_⟩
  rw [ofSize_wrapped_eq]
  norm_num

/-- Claim C18 at `Deque d(-1)` and position 0: `0 < Size()`, the real slot is 0, which
is not below `block_size_ * blocks_ = 0`, `Convert` gives block index 0, which is
not below `blocks_ = 0`, and the read is outside the zero-length block array. -/
theorem index_after_wrapped_ofSize :
    2 ^ 64 - 1 < size_t_card ∧ 0 < (Deque.ofSize (2 ^ 64 - 1)).Size ∧
    (Deque.ofSize (2 ^ 64 - 1)).real_index 0 = 0 ∧
    ¬ (Deque.ofSize (2 ^ 64 - 1)).real_index 0
        < block_size_ * (Deque.ofSize (2 ^ 64 - 1)).blocks_ ∧
    ¬ (Convert ((Deque.ofSize (2 ^ 64 - 1)).real_index 0)).1 < (Deque.ofSize (2 ^ 64 - 1)).blocks_ ∧
    (Deque.ofSize (2 ^ 64 - 1)).data_[(Convert ((Deque.ofSize (2 ^ 64 - 1)).real_index 0)).1]?
      = none ∧
    (Deque.ofSize (2 ^ 64 - 1)).index 0 = none := by
  have hd : (Deque.ofSize (2 ^ 64 - 1)).data_ = [] := by rw [ofSize_wrapped_eq]
  refine ⟨by norm_num [size_t_card], by rw [ofSize_wrapped_Size]; norm_num, ?_, ?_, ?_, ?_,
    index_of_no_storage hd 0⟩
  · rw [ofSize_wrapped_eq]; simp [real_index]
  · rw [ofSize_wrapped_eq]; simp [real_index]
  · rw [ofSize_wrapped_eq]; simp [real_index]
  · rw [hd]; simp

end Deque
